import Mathlib

/-!
Verification of the AutoRenamer rename-planning / conflict-resolution engine.

Shallow embedding of the Python sources:
  - src/AutoRenamer_v2.0.py            (plan builder `_build_rename_plan`, sorter
    `_iter_files_tolerant`, conflict resolver `_resolve_conflict_auto_index`,
    date resolver `_get_date_prefix`, executor `_worker_run`, undo `_worker_undo`,
    history helpers `_find_last_undoable` / `_mark_history_undone`)
  - src/rename_files_gui_optimized8.6.py (inline worker `_worker_run`, undo
    `_worker_undo`, the same conflict resolver and history helpers)

Modelling conventions:
  - the platform is POSIX (`os.name != 'nt'`), so `_name_key` is the identity,
    the sort key of `_iter_files_tolerant` is `str(p)`, and `os.rename`
    replaces an existing destination;
  - a filesystem path is a pair of a parent directory string and a file name
    (the code only ever uses `p.parent` and `p.name`); the filesystem is the
    list of paths that currently exist, with set semantics via membership;
  - Python sets of names are membership functions `String → Bool`;
  - `stat`, `getctime`, EXIF and video metadata reads are environment oracles:
    each returns either the `strftime('%Y%m%d')` date string the code would
    compute from it, or the failure outcome the code's `try/except` handles;
  - a raised-and-caught exception is an `Option`/branch in the embedding;
  - wall-clock fields (`elapsed`, timestamps) and log/summary strings are not
    modelled;
  - Python's `\d` is Unicode-wide; the marker the tool itself writes is ASCII,
    and the embedding reads `\d` as an ASCII digit.
-/

/-- Path of a file: parent directory plus file name, as used by the code via
`file_path.parent` and `file_path.name`. -/
structure FPath where
  dir : String
  name : String
deriving DecidableEq

/-- Filesystem snapshot: the set (as a membership list) of paths that exist. -/
abbrev FS := List FPath

/-- Full path string `str(p)` of a file, the sort key of
`_iter_files_tolerant` on POSIX. -/
def fullPath (p : FPath) : String := p.dir ++ "/" ++ p.name

/-- Membership function of `os.listdir(parent)` on a snapshot. -/
def listdirB (fs : FS) (d : String) : String → Bool :=
  fun n => decide (FPath.mk d n ∈ fs)

/-- Effect of `os.rename(src, dst)` on the snapshot (POSIX: `src` disappears,
`dst` exists afterwards, an existing `dst` is replaced). -/
def renameFS (fs : FS) (src dst : FPath) : FS :=
  dst :: fs.filter (fun q => decide (q ≠ src))

/-- Last index of character `c` in a character list (`str.rfind`). -/
def lastIdxOf (cs : List Char) (c : Char) : Option Nat :=
  match cs with
  | [] => none
  | a :: t =>
    match lastIdxOf t c with
    | some i => some (i + 1)
    | none => if a = c then some 0 else none

/-- Character-list core of `os.path.splitext` for a bare file name (POSIX, no
separator): split at the last dot, except when every character before the last
dot is itself a dot (leading dots do not start an extension). -/
def splitextL (cs : List Char) : List Char × List Char :=
  match lastIdxOf cs '.' with
  | none => (cs, [])
  | some d =>
    if (cs.take d).any (fun a => decide (a ≠ '.')) then (cs.take d, cs.drop d)
    else (cs, [])

/-- Embedding of `os.path.splitext` on file names. -/
def splitext (s : String) : String × String :=
  let p := splitextL s.data
  (⟨p.1⟩, ⟨p.2⟩)

/-- Embedding of pathlib's `PurePath.suffix` for a file name:
`name[i:]` for `i = name.rfind('.')` when `0 < i < len(name) - 1`, else `''`. -/
def pathSuffix (name : String) : String :=
  match lastIdxOf name.data '.' with
  | none => ""
  | some i =>
    if 0 < i ∧ i < name.data.length - 1 then ⟨name.data.drop i⟩ else ""

/-- Character-list core of the `DATE_PREFIX_RE = re.compile(r'^\d{8}_')` match:
eight digits followed by an underscore at the start of the name. -/
def hasDatePfxL (cs : List Char) : Bool :=
  (cs.take 8).all Char.isDigit && decide (cs[8]? = some '_')

/-- Embedding of `_has_any_date_prefix` (both GUI variants). -/
def hasAnyDatePfx (s : String) : Bool := hasDatePfxL s.data

/-- Shape of a `strftime('%Y%m%d')` result: exactly eight ASCII digits. -/
def isDate8 (s : String) : Bool := s.data.length == 8 && s.data.all Char.isDigit

/-- Zero-padded 3-digit rendering `f"{i:03d}"` of a conflict index. -/
def pad3 (i : Nat) : String :=
  if i < 10 then "00" ++ toString i
  else if i < 100 then "0" ++ toString i
  else toString i

/-- Candidate name `f"{stem}_{i:03d}{suffix}"` tried by the conflict
resolver. -/
def mkCand (stem suffix : String) (i : Nat) : String :=
  stem ++ "_" ++ pad3 i ++ suffix

/-- The suffix-search loop of `_resolve_conflict_auto_index`
(`for i in range(1, max_tries + 1)`), started at `i` with `fuel` iterations
left; `none` models the `RuntimeError` raised on exhaustion. -/
def resolveTry (stem suffix : String) (ex res : String → Bool) :
    Nat → Nat → Option (String × Nat)
  | _, 0 => none
  | i, Nat.succ fuel =>
    let cand := mkCand stem suffix i
    if ex cand = false ∧ res cand = false then some (cand, i)
    else resolveTry stem suffix ex res (i + 1) fuel

/-- Embedding of `_resolve_conflict_auto_index(base_name, existing_names,
reserved_names, max_tries)`; on POSIX the v2.0 `key_func=_name_key` is the
identity, so both variants coincide.  `none` models the raised
`RuntimeError("Too many conflicts...")`. -/
def resolveConflictAutoIndex (base : String) (ex res : String → Bool)
    (maxTries : Nat) : Option (String × Nat) :=
  if ex base = false ∧ res base = false then some (base, 0)
  else
    let s := splitext base
    resolveTry s.1 s.2 ex res 1 maxTries

/-- Lower-casing `str.lower()` as a structural character map (the names the
filters compare are ASCII; Lean's `String.toLower` itself is not structurally
recursive, which only matters for proof evaluation). -/
def lowerStr (s : String) : String := ⟨s.data.map Char.toLower⟩

/-- Python substring test `needle in hay` on character lists. -/
def substrL (n : List Char) : List Char → Bool
  | [] => n.isEmpty
  | c :: t => n.isPrefixOf (c :: t) || substrL n t

/-- Python substring test on strings. -/
def substrB (n h : String) : Bool := substrL n.data h.data

/-- Per-file filter check shared by `_build_rename_plan` (v2.0, lines
1050-1064) and `_worker_run` (8.6, lines 2593-2606): extension set, include
substring, exclude substring, all against the lower-cased name. -/
def fileKept (exts : List String) (inc exc : String) (p : FPath) : Bool :=
  let nameLower := lowerStr p.name
  if exts ≠ [] ∧ lowerStr (pathSuffix p.name) ∉ exts then false
  else if inc ≠ "" ∧ substrB inc nameLower = false then false
  else if exc ≠ "" ∧ substrB exc nameLower = true then false
  else true

/-- Filter pass: `(kept, filtered_out)`; when no criterion is configured the
code skips the pass entirely (same result). -/
def applyNameFilter (exts : List String) (inc exc : String) (files : List FPath) :
    List FPath × Nat :=
  if exts ≠ [] ∨ inc ≠ "" ∨ exc ≠ "" then
    let kept := files.filter (fileKept exts inc exc)
    (kept, files.length - kept.length)
  else (files, 0)

/-- Sorting step of `_iter_files_tolerant` (v2.0, line 763):
`files.sort(key=lambda p: str(p))` on POSIX. -/
def sortFiles (l : List FPath) : List FPath :=
  l.mergeSort (fun a b => decide (fullPath a ≤ fullPath b))

/-- Environment oracles for the date sources: each returns what the code would
derive from the corresponding read, or its failure outcome.
`mstat`/`cstat`: `strftime('%Y%m%d')` of `st_mtime`/`getctime`, `none` when the
call raises.  `exifDt`/`videoDt`: the `(datetime, note)` contract of
`_read_exif_datetime` / `_read_video_datetime`, with the datetime already
rendered as `YYYYMMDD`. -/
structure Env where
  mstat : FPath → Option String
  cstat : FPath → Option String
  exifDt : FPath → Option String × Option String
  videoDt : FPath → Option String × Option String

/-- Python `a or b` on optional note strings (empty string is falsy). -/
def pyOrNote : Option String → Option String → Option String
  | some s, b => if s = "" then b else some s
  | none, b => b

/-- Lower-cased video container suffixes `_VIDEO_META_SUFFIXES`. -/
def videoSuffixes : List String := [".mp4", ".mov", ".m4v", ".avi", ".mkv"]

/-- Embedding of `_get_date_prefix(p, date_source)` (v2.0, lines 974-1012):
returns `(YYYYMMDD?, note?)`; every failure is a returned value, never an
escaping exception (the function body is wrapped in `try/except`). -/
def getDatePfx (env : Env) (p : FPath) (dateSource : String) :
    Option String × Option String :=
  if dateSource = "ctime" then
    match env.cstat p with
    | some d => (some d, none)
    | none => (none, none)
  else if dateSource = "exif" then
    match env.exifDt p with
    | (some d, _) => (some d, none)
    | (none, noteCode) =>
      let vres : Option String × Option String :=
        if lowerStr (pathSuffix p.name) ∈ videoSuffixes then env.videoDt p
        else (none, none)
      match vres with
      | (some d, _) => (some d, none)
      | (none, vNote) =>
        let fallbackNote := pyOrNote vNote (pyOrNote noteCode (some "meta_missing"))
        match env.mstat p with
        | some d => (some d, fallbackNote)
        | none => (none, fallbackNote)
  else
    match env.mstat p with
    | some d => (some d, none)
    | none => (none, none)

/-- One planned decision, mirroring the `PlanItem` dataclass (v2.0, lines
621-635); the localized `summary` string is not modelled. -/
structure PlanItem where
  path : FPath
  original_name : String
  base_name : Option String
  final_name : Option String
  status : String
  note_code : Option String
  conflict_index : Nat
  error : Option String
deriving DecidableEq

/-- Per-directory name-set maps `existing_keys_by_dir` / `reserved_keys_by_dir`
of one planning pass (`dict[Path, set[str]]`). -/
abbrev DirSets := String → Option (String → Bool)

/-- Functional update of a per-directory map. -/
def updateDir (m : DirSets) (d : String) (s : String → Bool) : DirSets :=
  fun d' => if d' = d then some s else m d'

/-- Set insertion (`set.add`). -/
def addName (s : String → Bool) (n : String) : String → Bool :=
  fun n' => if n' = n then true else s n'

/-- Set removal (`set.discard`). -/
def discardName (s : String → Bool) (n : String) : String → Bool :=
  fun n' => if n' = n then false else s n'

/-- Mutable state of the planning loop. -/
structure BuildState where
  exM : DirSets
  resM : DirSets

/-- Initial (empty) planning state. -/
def BuildState.empty : BuildState := ⟨fun _ => none, fun _ => none⟩

/-- Body of the per-file loop of `_build_rename_plan` (v2.0, lines 1075-1152):
produces this file's `PlanItem` and the updated per-directory state. -/
def buildStep (env : Env) (fs : FS) (dateSource : String) (st : BuildState)
    (p : FPath) : PlanItem × BuildState :=
  let original := p.name
  let parent := p.dir
  if hasAnyDatePfx original then
    ({ path := p, original_name := original, base_name := none,
       final_name := some original, status := "skip_prefix", note_code := none,
       conflict_index := 0, error := none }, st)
  else
    match getDatePfx env p dateSource with
    | (none, _) =>
      ({ path := p, original_name := original, base_name := none,
         final_name := some original, status := "error", note_code := none,
         conflict_index := 0, error := some "stat() failed" }, st)
    | (some datePfx, noteCode) =>
      let baseName := datePfx ++ "_" ++ original
      let exInit : (String → Bool) × DirSets :=
        match st.exM parent with
        | some e => (e, st.exM)
        | none => (listdirB fs parent, updateDir st.exM parent (listdirB fs parent))
      let existing := exInit.1
      let resInit : (String → Bool) × DirSets :=
        match st.resM parent with
        | some r => (r, st.resM)
        | none => (fun _ => false, updateDir st.resM parent (fun _ => false))
      let reserved := resInit.1
      match resolveConflictAutoIndex baseName existing reserved 999 with
      | none =>
        ({ path := p, original_name := original, base_name := some baseName,
           final_name := some original, status := "error", note_code := noteCode,
           conflict_index := 0,
           error := some ("Too many conflicts when resolving: " ++ baseName) },
         { exM := exInit.2, resM := resInit.2 })
      | some (finalName, idx) =>
        ({ path := p, original_name := original, base_name := some baseName,
           final_name := some finalName, status := "rename", note_code := noteCode,
           conflict_index := idx, error := none },
         { exM := updateDir exInit.2 parent
             (addName (discardName existing original) finalName),
           resM := updateDir resInit.2 parent (addName reserved finalName) })

/-- The planning loop over the kept files, threading the per-directory
state. -/
def buildGo (env : Env) (fs : FS) (dateSource : String) :
    List FPath → BuildState → List PlanItem × BuildState
  | [], st => ([], st)
  | p :: rest, st =>
    let r := buildStep env fs dateSource st p
    let t := buildGo env fs dateSource rest r.2
    (r.1 :: t.1, t.2)

/-- Plan items produced by `_build_rename_plan` for an already-scanned,
already-filtered file list (cancellation signal absent, its default). -/
def buildPlanItems (env : Env) (fs : FS) (dateSource : String)
    (files : List FPath) : List PlanItem :=
  (buildGo env fs dateSource files BuildState.empty).1

/-- Counters of `RenameResult` (both variants); `elapsed` is not modelled. -/
structure RenameResult where
  renamed : Nat
  skipped : Nat
  filtered : Nat
  conflicts : Nat
  errors : Nat
  total : Nat
  cancelled : Bool
deriving DecidableEq

/-- All-zero counters. -/
def RenameResult.init : RenameResult := ⟨0, 0, 0, 0, 0, 0, false⟩

/-- One recorded rename `{'old': str(src), 'new': str(dst)}`. -/
structure Op where
  old : FPath
  new : FPath
deriving DecidableEq

/-- Execution loop of the v2.0 `_worker_run` over `plan.items` (lines
3427-3470); `cancel i` is the value of `self._cancel_event.is_set()` read at
iteration `i`. -/
def execGo (cancel : Nat → Bool) (dryRun : Bool) :
    List PlanItem → Nat → FS → RenameResult → List Op →
    RenameResult × List Op × FS
  | [], _, fs, res, ops => (res, ops, fs)
  | it :: rest, i, fs, res, ops =>
    if cancel i then ({ res with cancelled := true }, ops, fs)
    else if it.status = "skip_prefix" then
      execGo cancel dryRun rest (i + 1) fs
        { res with skipped := res.skipped + 1 } ops
    else if it.status = "error" then
      execGo cancel dryRun rest (i + 1) fs
        { res with errors := res.errors + 1 } ops
    else
      let finalName :=
        match it.final_name with
        | some s => if s = "" then it.original_name else s
        | none => it.original_name
      let res₁ :=
        if it.conflict_index > 0 then { res with conflicts := res.conflicts + 1 }
        else res
      if dryRun then
        execGo cancel dryRun rest (i + 1) fs
          { res₁ with renamed := res₁.renamed + 1 } ops
      else
        let src := it.path
        let dst := FPath.mk src.dir finalName
        if src ∈ fs then
          execGo cancel dryRun rest (i + 1) (renameFS fs src dst)
            { res₁ with renamed := res₁.renamed + 1 } (ops ++ [⟨src, dst⟩])
        else
          execGo cancel dryRun rest (i + 1) fs
            { res₁ with errors := res₁.errors + 1 } ops

/-- The v2.0 executor on a plan's items: sets `total` then runs the loop. -/
def execPlan (cancel : Nat → Bool) (dryRun : Bool) (items : List PlanItem)
    (fs : FS) : RenameResult × List Op × FS :=
  execGo cancel dryRun items 1 fs
    { RenameResult.init with total := items.length } []

/-- Inline worker loop of the 8.6 `_worker_run` (lines 2623-2676): scanning
order is the input list, `mdate p` is the date the code derives from
`file_path.stat().st_mtime` (or `none` when `stat` raises). -/
def worker86Go (mdate : FPath → Option String) (cancel : Nat → Bool)
    (dryRun : Bool) :
    List FPath → Nat → FS → DirSets → DirSets → RenameResult → List Op →
    RenameResult × List Op × FS
  | [], _, fs, _, _, res, ops => (res, ops, fs)
  | p :: rest, idx, fs, exM, resM, res, ops =>
    if cancel idx then ({ res with cancelled := true }, ops, fs)
    else
      let original := p.name
      if hasAnyDatePfx original then
        worker86Go mdate cancel dryRun rest (idx + 1) fs exM resM
          { res with skipped := res.skipped + 1 } ops
      else
        match mdate p with
        | none =>
          worker86Go mdate cancel dryRun rest (idx + 1) fs exM resM
            { res with errors := res.errors + 1 } ops
        | some datePfx =>
          let newName := datePfx ++ "_" ++ original
          let parent := p.dir
          let exInit : (String → Bool) × DirSets :=
            match exM parent with
            | some e => (e, exM)
            | none => (listdirB fs parent, updateDir exM parent (listdirB fs parent))
          let existing := exInit.1
          let resInit : (String → Bool) × DirSets :=
            match resM parent with
            | some r => (r, resM)
            | none => (fun _ => false, updateDir resM parent (fun _ => false))
          let reserved := resInit.1
          match resolveConflictAutoIndex newName existing reserved 999 with
          | none =>
            worker86Go mdate cancel dryRun rest (idx + 1) fs exInit.2 resInit.2
              { res with errors := res.errors + 1 } ops
          | some (finalName, suffixIdx) =>
            let res₁ :=
              if suffixIdx > 0 then { res with conflicts := res.conflicts + 1 }
              else res
            let exM₂ := updateDir exInit.2 parent
              (addName (discardName existing original) finalName)
            let resM₂ := updateDir resInit.2 parent (addName reserved finalName)
            if dryRun then
              worker86Go mdate cancel dryRun rest (idx + 1) fs exM₂ resM₂
                { res₁ with renamed := res₁.renamed + 1 } ops
            else
              let dst := FPath.mk parent finalName
              if p ∈ fs then
                worker86Go mdate cancel dryRun rest (idx + 1) (renameFS fs p dst)
                  exM₂ resM₂ { res₁ with renamed := res₁.renamed + 1 }
                  (ops ++ [⟨p, dst⟩])
              else
                worker86Go mdate cancel dryRun rest (idx + 1) fs exInit.2 resInit.2
                  { res₁ with errors := res₁.errors + 1 } ops

/-- The 8.6 worker on an enumerated file list: filter pass, then the loop. -/
def worker86 (mdate : FPath → Option String) (cancel : Nat → Bool)
    (dryRun : Bool) (exts : List String) (inc exc : String)
    (files : List FPath) (fs : FS) : RenameResult × List Op × FS :=
  let fl := applyNameFilter exts inc exc files
  worker86Go mdate cancel dryRun fl.1 1 fs (fun _ => none) (fun _ => none)
    { RenameResult.init with filtered := fl.2, total := fl.1.length } []

/-- Counters of `UndoResult`; `elapsed` and `no_history` are not modelled. -/
structure UndoRes where
  restored : Nat
  skipped : Nat
  errors : Nat
  total : Nat
  cancelled : Bool
deriving DecidableEq

/-- Loop body of `_worker_undo` (8.6 lines 2278-2308, v2.0 lines 3083-3113)
over an already-reversed operation list: missing renamed path → skip; original
recreated → skip; otherwise rename back. -/
def undoGo (cancel : Nat → Bool) :
    List Op → Nat → FS → UndoRes → UndoRes × FS
  | [], _, fs, r => (r, fs)
  | op :: rest, idx, fs, r =>
    if cancel idx then ({ r with cancelled := true }, fs)
    else if op.new ∉ fs then
      undoGo cancel rest (idx + 1) fs { r with skipped := r.skipped + 1 }
    else if op.old ∈ fs then
      undoGo cancel rest (idx + 1) fs { r with skipped := r.skipped + 1 }
    else
      undoGo cancel rest (idx + 1) (renameFS fs op.new op.old)
        { r with restored := r.restored + 1 }

/-- Embedding of `_worker_undo`'s processing of `reversed(ops)`. -/
def workerUndo (cancel : Nat → Bool) (ops : List Op) (fs : FS) : UndoRes × FS :=
  undoGo cancel ops.reverse 1 fs ⟨0, 0, 0, ops.length, false⟩

/-- One history entry, restricted to the fields the undo path reads
(`id`, `ops`, `status`); timestamps, options snapshot and the undo summary are
not modelled. -/
structure HistoryEntry where
  id : String
  ops : List Op
  status : String
deriving DecidableEq

/-- Scan of `_find_last_undoable` over `(index, entry)` pairs from the end. -/
def findLastUndoableGo : List (Nat × HistoryEntry) → Option (Nat × HistoryEntry)
  | [] => none
  | (i, e) :: rest =>
    if e.status = "done" ∧ e.ops ≠ [] then some (i, e)
    else findLastUndoableGo rest

/-- Embedding of `_find_last_undoable(items)` (8.6 lines 425-433): latest
entry whose status is `done` and whose operation list is non-empty. -/
def findLastUndoable (items : List HistoryEntry) : Option (Nat × HistoryEntry) :=
  findLastUndoableGo items.enum.reverse

/-- Embedding of `_mark_history_undone(entry_id, summary)`: flip the first
entry with the given id to `undone` (the summary payload is not modelled). -/
def markHistoryUndone (eid : String) : List HistoryEntry → List HistoryEntry
  | [] => []
  | e :: rest =>
    if e.id = eid then { e with status := "undone" } :: rest
    else e :: markHistoryUndone eid rest

/-- Whole `_worker_undo` invocation incl. its `finally` block: run the undo
loop, then mark the source entry undone whatever the outcome (when the id is
non-empty). -/
def workerUndoFull (cancel : Nat → Bool) (eid : String) (ops : List Op)
    (fs : FS) (history : List HistoryEntry) :
    UndoRes × FS × List HistoryEntry :=
  let r := workerUndo cancel ops fs
  (r.1, r.2, if eid ≠ "" then markHistoryUndone eid history else history)

/-- Effect of one executed rename on the snapshot. -/
def applyOp (fs : FS) (o : Op) : FS := renameFS fs o.old o.new

/-- Effect of an executed batch on the snapshot. -/
def applyOps (ops : List Op) (fs : FS) : FS := ops.foldl applyOp fs

/-- A batch of successfully executed renames starting from `fs`: each
operation moved a then-existing `old` to a then-fresh `new`. -/
def validTrace : List Op → FS → Bool
  | [], _ => true
  | o :: rest, fs =>
    decide (o.old ∈ fs) && !(decide (o.new ∈ fs)) && validTrace rest (applyOp fs o)

/-- Extensional equality of snapshots (same set of existing paths). -/
def sameFS (a b : FS) : Prop := ∀ p : FPath, p ∈ a ↔ p ∈ b

/-- The condition under which every real rename of an executor pass succeeds:
each `rename` item reached before cancellation finds its source path present
in the then-current snapshot (this is what an interference-free execution of a
well-built plan looks like; a real run deviates from a dry run exactly where
this fails). -/
def renamesOk (cancel : Nat → Bool) : List PlanItem → Nat → FS → Bool
  | [], _, _ => true
  | it :: rest, i, fs =>
    if cancel i then true
    else if it.status = "skip_prefix" then renamesOk cancel rest (i + 1) fs
    else if it.status = "error" then renamesOk cancel rest (i + 1) fs
    else
      let finalName :=
        match it.final_name with
        | some s => if s = "" then it.original_name else s
        | none => it.original_name
      let src := it.path
      let dst := FPath.mk src.dir finalName
      if src ∈ fs then renamesOk cancel rest (i + 1) (renameFS fs src dst)
      else false

/-- Directory-set synchronisation: each recorded existing-name set describes
exactly the names currently present in its directory. -/
def dirSync (exM : DirSets) (fs : FS) : Prop :=
  ∀ d E, exM d = some E → ∀ n, (E n = true ↔ FPath.mk d n ∈ fs)

/-! ## Properties of the conflict resolver -/

/-- Characterization of a successful suffix search: the returned index is the
least free one in the range tried, and the returned name is the corresponding
candidate. -/
theorem resolveTry_some (stem suffix : String) (ex res : String → Bool) :
    ∀ fuel i cand k, resolveTry stem suffix ex res i fuel = some (cand, k) →
      i ≤ k ∧ k < i + fuel ∧ cand = mkCand stem suffix k ∧
      ex cand = false ∧ res cand = false ∧
      ∀ j, i ≤ j → j < k →
        ex (mkCand stem suffix j) = true ∨ res (mkCand stem suffix j) = true := by
  intro fuel
  induction fuel with
  | zero => intro i cand k h; simp [resolveTry] at h
  | succ fuel ih =>
    intro i cand k h
    rw [resolveTry] at h
    by_cases hfree : ex (mkCand stem suffix i) = false ∧ res (mkCand stem suffix i) = false
    · rw [if_pos hfree] at h
      obtain ⟨rfl, rfl⟩ : mkCand stem suffix i = cand ∧ i = k := by
        simpa using h
      refine ⟨le_refl _, by omega, rfl, hfree.1, hfree.2, ?_⟩
      intro j h1 h2; omega
    · rw [if_neg hfree] at h
      obtain ⟨h1, h2, h3, h4, h5, h6⟩ := ih (i + 1) cand k h
      refine ⟨by omega, by omega, h3, h4, h5, ?_⟩
      intro j hj1 hj2
      rcases Nat.eq_or_lt_of_le hj1 with hji | hji
      · rw [← hji]
        by_cases hx : ex (mkCand stem suffix i) = true
        · exact Or.inl hx
        · by_cases hy : res (mkCand stem suffix i) = true
          · exact Or.inr hy
          · exact absurd ⟨Bool.eq_false_iff.mpr hx, Bool.eq_false_iff.mpr hy⟩ hfree
      · exact h6 j hji hj2

/-- The suffix search raises (returns `none`) when every candidate in its
range is taken. -/
theorem resolveTry_none (stem suffix : String) (ex res : String → Bool) :
    ∀ fuel i,
      (∀ j, i ≤ j → j < i + fuel →
        ex (mkCand stem suffix j) = true ∨ res (mkCand stem suffix j) = true) →
      resolveTry stem suffix ex res i fuel = none := by
  intro fuel
  induction fuel with
  | zero => intro i _; rfl
  | succ fuel ih =>
    intro i hall
    rw [resolveTry]
    have hi : ex (mkCand stem suffix i) = true ∨ res (mkCand stem suffix i) = true :=
      hall i (le_refl _) (by omega)
    have hnot : ¬(ex (mkCand stem suffix i) = false ∧ res (mkCand stem suffix i) = false) := by
      rintro ⟨h1, h2⟩
      rcases hi with h | h
      · rw [h1] at h; exact Bool.false_ne_true h
      · rw [h2] at h; exact Bool.false_ne_true h
    rw [if_neg hnot]
    exact ih (i + 1) (fun j hj1 hj2 => hall j (by omega) (by omega))

/-- The suffix search succeeds when some candidate in its range is free. -/
theorem resolveTry_isSome (stem suffix : String) (ex res : String → Bool) :
    ∀ fuel i j, i ≤ j → j < i + fuel →
      ex (mkCand stem suffix j) = false ∧ res (mkCand stem suffix j) = false →
      (resolveTry stem suffix ex res i fuel).isSome := by
  intro fuel
  induction fuel with
  | zero => intro i j h1 h2 _; omega
  | succ fuel ih =>
    intro i j h1 h2 hfree
    rw [resolveTry]
    by_cases hi : ex (mkCand stem suffix i) = false ∧ res (mkCand stem suffix i) = false
    · rw [if_pos hi]; rfl
    · rw [if_neg hi]
      have hij : i ≠ j := fun h => hi (h ▸ hfree)
      exact ih (i + 1) j (by omega) (by omega) hfree

/-- Shape of a resolved name: either the base name itself (no conflict) or the
candidate with the returned index. -/
theorem resolve_shape (base : String) (ex res : String → Bool) (n : Nat)
    (final : String) (k : Nat)
    (h : resolveConflictAutoIndex base ex res n = some (final, k)) :
    final = base ∨ final = mkCand (splitext base).1 (splitext base).2 k := by
  rw [resolveConflictAutoIndex] at h
  by_cases hfree : ex base = false ∧ res base = false
  · rw [if_pos hfree] at h
    left
    have : base = final ∧ 0 = k := by simpa using h
    exact this.1.symm
  · rw [if_neg hfree] at h
    right
    exact (resolveTry_some _ _ ex res n 1 final k h).2.2.1

/-- A resolved name is absent from the existing-name set it was resolved
against. -/
theorem resolve_not_existing (base : String) (ex res : String → Bool) (n : Nat)
    (final : String) (k : Nat)
    (h : resolveConflictAutoIndex base ex res n = some (final, k)) :
    ex final = false ∧ res final = false := by
  rw [resolveConflictAutoIndex] at h
  by_cases hfree : ex base = false ∧ res base = false
  · rw [if_pos hfree] at h
    have : base = final ∧ 0 = k := by simpa using h
    exact this.1 ▸ hfree
  · rw [if_neg hfree] at h
    have := resolveTry_some _ _ ex res n 1 final k h
    exact ⟨this.2.2.2.1, this.2.2.2.2.1⟩

/-- C3: `_resolve_conflict_auto_index` returns `(base_name, 0)` when the base
name is in neither set; otherwise it splits the base into stem and extension
and returns the first free candidate `stem_001 … stem_999` (extension
preserved, increasing numeric order) together with its index; and on existing
names `report.txt`, `report_001.txt` with base `report.txt` it returns
`(report_002.txt, 2)`. -/
theorem conflict_resolver_first_free (base : String) (ex res : String → Bool)
    (stem suffix : String) (hsplit : splitext base = (stem, suffix)) :
    (ex base = false ∧ res base = false →
      resolveConflictAutoIndex base ex res 999 = some (base, 0)) ∧
    (∀ cand k, resolveConflictAutoIndex base ex res 999 = some (cand, k) →
      ¬(ex base = false ∧ res base = false) →
      1 ≤ k ∧ k ≤ 999 ∧ cand = mkCand stem suffix k ∧
      ex cand = false ∧ res cand = false ∧
      ∀ j, 1 ≤ j → j < k →
        ex (mkCand stem suffix j) = true ∨ res (mkCand stem suffix j) = true) ∧
    (∀ j, 1 ≤ j → j ≤ 999 →
      ex (mkCand stem suffix j) = false ∧ res (mkCand stem suffix j) = false →
      (resolveConflictAutoIndex base ex res 999).isSome) ∧
    resolveConflictAutoIndex "report.txt"
      (fun s => decide (s = "report.txt" ∨ s = "report_001.txt"))
      (fun _ => false) 999 = some ("report_002.txt", 2) := by
  refine ⟨?_, ?_, ?_, by decide⟩
  · intro hfree
    rw [resolveConflictAutoIndex, if_pos hfree]
  · intro cand k h hnot
    rw [resolveConflictAutoIndex, if_neg hnot, hsplit] at h
    obtain ⟨h1, h2, h3, h4, h5, h6⟩ := resolveTry_some stem suffix ex res 999 1 cand k h
    exact ⟨h1, by omega, h3, h4, h5, h6⟩
  · intro j hj1 hj2 hfree
    by_cases hb : ex base = false ∧ res base = false
    · rw [resolveConflictAutoIndex, if_pos hb]; rfl
    · rw [resolveConflictAutoIndex, if_neg hb, hsplit]
      exact resolveTry_isSome stem suffix ex res 999 1 j hj1 (by omega) hfree

/-- Closed instance of C3 at a conflict-free input. -/
theorem conflict_resolver_first_free_witness :
    resolveConflictAutoIndex "a.txt" (fun _ => false) (fun _ => false) 999 =
      some ("a.txt", 0) :=
  (conflict_resolver_first_free "a.txt" (fun _ => false) (fun _ => false)
    "a" ".txt" (by decide)).1 ⟨rfl, rfl⟩

/-! ## Planning never aborts: per-item errors -/

/-- The planning loop produces exactly one item per input file, whatever
happens to individual items. -/
theorem buildGo_length (env : Env) (fs : FS) (ds : String) :
    ∀ (files : List FPath) (st : BuildState),
      ((buildGo env fs ds files st).1).length = files.length := by
  intro files
  induction files with
  | nil => intro st; rfl
  | cons p rest ih =>
    intro st
    show ((buildStep env fs ds st p).1 ::
      (buildGo env fs ds rest (buildStep env fs ds st p).2).1).length = rest.length + 1
    rw [List.length_cons, ih]

/-- C8: when the base name and all 999 suffix candidates are taken in both the
existing and the reserved set, the resolver raises (`none`), the planner turns
that into an `error` status on this item alone (the item keeps its original
name), and the loop goes on to process every remaining item. -/
theorem conflict_exhaustion_per_item_error (env : Env) (fs : FS) (ds : String)
    (st : BuildState) (p : FPath) (rest : List FPath)
    (dt : String) (note : Option String)
    (hpfx : hasAnyDatePfx p.name = false)
    (hdate : getDatePfx env p ds = (some dt, note))
    (hbase : ((st.exM p.dir).getD (listdirB fs p.dir)) (dt ++ "_" ++ p.name) = true ∨
      ((st.resM p.dir).getD (fun _ => false)) (dt ++ "_" ++ p.name) = true)
    (hall : ∀ j, 1 ≤ j → j ≤ 999 →
      ((st.exM p.dir).getD (listdirB fs p.dir))
          (mkCand (splitext (dt ++ "_" ++ p.name)).1
            (splitext (dt ++ "_" ++ p.name)).2 j) = true ∨
        ((st.resM p.dir).getD (fun _ => false))
          (mkCand (splitext (dt ++ "_" ++ p.name)).1
            (splitext (dt ++ "_" ++ p.name)).2 j) = true) :
    resolveConflictAutoIndex (dt ++ "_" ++ p.name)
        ((st.exM p.dir).getD (listdirB fs p.dir))
        ((st.resM p.dir).getD (fun _ => false)) 999 = none ∧
    (buildStep env fs ds st p).1.status = "error" ∧
    (buildStep env fs ds st p).1.final_name = some p.name ∧
    (buildStep env fs ds st p).1.error =
      some ("Too many conflicts when resolving: " ++ (dt ++ "_" ++ p.name)) ∧
    buildGo env fs ds (p :: rest) st =
      ((buildStep env fs ds st p).1 ::
        (buildGo env fs ds rest (buildStep env fs ds st p).2).1,
       (buildGo env fs ds rest (buildStep env fs ds st p).2).2) ∧
    ((buildGo env fs ds (p :: rest) st).1).length = rest.length + 1 := by
  set E := (st.exM p.dir).getD (listdirB fs p.dir) with hE
  set R := (st.resM p.dir).getD (fun _ => false) with hR
  have hnone : resolveConflictAutoIndex (dt ++ "_" ++ p.name) E R 999 = none := by
    rw [resolveConflictAutoIndex]
    have hnotfree : ¬(E (dt ++ "_" ++ p.name) = false ∧ R (dt ++ "_" ++ p.name) = false) := by
      rintro ⟨h1, h2⟩
      rcases hbase with h | h
      · rw [h1] at h; exact Bool.false_ne_true h
      · rw [h2] at h; exact Bool.false_ne_true h
    rw [if_neg hnotfree]
    exact resolveTry_none _ _ E R 999 1 (fun j hj1 hj2 => hall j hj1 (by omega))
  have hstep : (buildStep env fs ds st p).1.status = "error" ∧
      (buildStep env fs ds st p).1.final_name = some p.name ∧
      (buildStep env fs ds st p).1.error =
        some ("Too many conflicts when resolving: " ++ (dt ++ "_" ++ p.name)) := by
    rw [buildStep]
    rw [if_neg (by rw [hpfx]; exact Bool.false_ne_true)]
    rw [hdate]
    have hEeq : (match st.exM p.dir with
        | some e => (e, st.exM)
        | none => (listdirB fs p.dir, updateDir st.exM p.dir (listdirB fs p.dir))).1 = E := by
      rw [hE]; cases st.exM p.dir <;> rfl
    have hReq : (match st.resM p.dir with
        | some r => (r, st.resM)
        | none => ((fun _ => false), updateDir st.resM p.dir (fun _ => false))).1 = R := by
      rw [hR]; cases st.resM p.dir <;> rfl
    simp only [hEeq, hReq, hnone]
    exact ⟨trivial, trivial, trivial⟩
  exact ⟨hnone, hstep.1, hstep.2.1, hstep.2.2, rfl,
    buildGo_length env fs ds (p :: rest) st⟩

/-- Closed instance of C8: with every name taken in the existing set, the
planner errors the item and still plans the one remaining file. -/
theorem conflict_exhaustion_per_item_error_witness :
    ((buildGo (⟨fun _ => some "20240101", fun _ => none, fun _ => (none, none),
        fun _ => (none, none)⟩ : Env) []
      "mtime" [⟨"d", "a.txt"⟩, ⟨"d", "b.txt"⟩]
      ⟨fun _ => some (fun _ => true), fun _ => none⟩).1).length = 1 + 1 := by
  have h := conflict_exhaustion_per_item_error
    (⟨fun _ => some "20240101", fun _ => none, fun _ => (none, none),
      fun _ => (none, none)⟩ : Env) [] "mtime"
    ⟨fun _ => some (fun _ => true), fun _ => none⟩
    ⟨"d", "a.txt"⟩ [⟨"d", "b.txt"⟩] "20240101" none
    (by decide)
    (by rfl)
    (Or.inl rfl)
    (fun j h1 h2 => Or.inl rfl)
  exact h.2.2.2.2.2

/-! ## Undo loop per-operation semantics -/

/-- C7: one undo step: a missing renamed path is counted as skipped (not an
error) and the loop continues on the same snapshot; an already-recreated
original is likewise skipped; otherwise `new` is renamed back to `old` and
counted as restored.  In every case the remaining operations are processed
unchanged. -/
theorem undo_step_semantics (cancel : Nat → Bool) (op : Op) (rest : List Op)
    (idx : Nat) (fs : FS) (r : UndoRes) (hc : cancel idx = false) :
    (op.new ∉ fs →
      undoGo cancel (op :: rest) idx fs r =
        undoGo cancel rest (idx + 1) fs { r with skipped := r.skipped + 1 }) ∧
    (op.new ∈ fs → op.old ∈ fs →
      undoGo cancel (op :: rest) idx fs r =
        undoGo cancel rest (idx + 1) fs { r with skipped := r.skipped + 1 }) ∧
    (op.new ∈ fs → op.old ∉ fs →
      undoGo cancel (op :: rest) idx fs r =
        undoGo cancel rest (idx + 1) (renameFS fs op.new op.old)
          { r with restored := r.restored + 1 }) := by
  refine ⟨?_, ?_, ?_⟩
  · intro hmiss
    rw [undoGo, if_neg (by rw [hc]; exact Bool.false_ne_true), if_pos hmiss]
  · intro hnew hold
    rw [undoGo, if_neg (by rw [hc]; exact Bool.false_ne_true),
      if_neg (by simpa using hnew), if_pos hold]
  · intro hnew hold
    rw [undoGo, if_neg (by rw [hc]; exact Bool.false_ne_true),
      if_neg (by simpa using hnew), if_neg hold]

/-- Closed instance of C7: a deleted renamed file yields a skip and leaves the
snapshot untouched for the rest of the batch. -/
theorem undo_step_semantics_witness :
    undoGo (fun _ => false) [⟨⟨"d", "a.txt"⟩, ⟨"d", "20240101_a.txt"⟩⟩] 1
        [⟨"d", "other.txt"⟩] ⟨0, 0, 0, 1, false⟩ =
      (⟨0, 1, 0, 1, false⟩, [⟨"d", "other.txt"⟩]) := by
  have h := (undo_step_semantics (fun _ => false)
    ⟨⟨"d", "a.txt"⟩, ⟨"d", "20240101_a.txt"⟩⟩ [] 1
    [⟨"d", "other.txt"⟩] ⟨0, 0, 0, 1, false⟩ rfl).1 (by decide)
  rw [h]; rfl

/-! ## History: undone entries are never selected again -/

/-- Whatever `_find_last_undoable`'s scan returns satisfies its guard:
the pair is in the scanned list, the entry's status is `done`, and its
operation list is non-empty. -/
theorem findLastUndoableGo_spec :
    ∀ (l : List (Nat × HistoryEntry)) (i : Nat) (e : HistoryEntry),
      findLastUndoableGo l = some (i, e) →
      (i, e) ∈ l ∧ e.status = "done" ∧ e.ops ≠ [] := by
  intro l
  induction l with
  | nil => intro i e h; simp [findLastUndoableGo] at h
  | cons x rest ih =>
    intro i e h
    rw [findLastUndoableGo] at h
    by_cases hx : x.2.status = "done" ∧ x.2.ops ≠ []
    · rw [if_pos hx] at h
      have : (x.1, x.2) = (i, e) := by simpa using h
      have hxe : x = (i, e) := by
        rw [← this]
      rw [hxe] at hx
      exact ⟨by rw [← hxe]; exact List.mem_cons_self x rest, hx.1, hx.2⟩
    · rw [if_neg hx] at h
      obtain ⟨h1, h2, h3⟩ := ih i e h
      exact ⟨List.mem_cons_of_mem x h1, h2, h3⟩

/-- An entry returned by `_find_last_undoable` is a member of the history with
status `done` and non-empty ops. -/
theorem findLastUndoable_mem (items : List HistoryEntry) (i : Nat)
    (e : HistoryEntry) (h : findLastUndoable items = some (i, e)) :
    e ∈ items ∧ e.status = "done" ∧ e.ops ≠ [] := by
  obtain ⟨h1, h2, h3⟩ := findLastUndoableGo_spec items.enum.reverse i e h
  refine ⟨?_, h2, h3⟩
  have : (i, e) ∈ items.enum := List.mem_reverse.mp h1
  have : e ∈ items.enum.map Prod.snd := List.mem_map_of_mem Prod.snd this
  rwa [List.enum_map_snd] at this

/-- After `_mark_history_undone`, every entry carrying the marked id has
status `undone`, provided the id occurs at most once in the history. -/
theorem markHistoryUndone_status (eid : String) :
    ∀ (h : List HistoryEntry),
      List.countP (fun e => decide (e.id = eid)) h ≤ 1 →
      ∀ e ∈ markHistoryUndone eid h, e.id = eid → e.status = "undone" := by
  intro h
  induction h with
  | nil => intro _ e he _; simp [markHistoryUndone] at he
  | cons x rest ih =>
    intro hcount e he hid
    rw [markHistoryUndone] at he
    by_cases hx : x.id = eid
    · rw [if_pos hx] at he
      rcases List.mem_cons.mp he with rfl | hmem
      · rfl
      · exfalso
        have hrest : List.countP (fun e => decide (e.id = eid)) rest = 0 := by
          rw [List.countP_cons,
            if_pos (show (fun e => decide (e.id = eid)) x = true by simp [hx])]
            at hcount
          omega
        have := List.countP_eq_zero.mp hrest e hmem
        simp [hid] at this
    · rw [if_neg hx] at he
      rcases List.mem_cons.mp he with rfl | hmem
      · exact absurd hid hx
      · have hcount' : List.countP (fun e => decide (e.id = eid)) rest ≤ 1 := by
          rw [List.countP_cons,
            if_neg (show ¬(fun e => decide (e.id = eid)) x = true by simp [hx])]
            at hcount
          omega
        exact ih hcount' e hmem hid

/-- C10: every `_worker_undo` invocation — whatever the cancellation pattern,
snapshot and per-operation outcomes — ends by marking the source entry
`undone`; afterwards every history entry with that id has status `undone`, and
`_find_last_undoable` can never select that entry again. -/
theorem undo_marks_entry_done_forever (cancel : Nat → Bool) (eid : String)
    (ops : List Op) (fs : FS) (history : List HistoryEntry)
    (hne : eid ≠ "")
    (huniq : List.countP (fun e => decide (e.id = eid)) history ≤ 1) :
    (workerUndoFull cancel eid ops fs history).2.2 = markHistoryUndone eid history ∧
    (∀ e ∈ (workerUndoFull cancel eid ops fs history).2.2, e.id = eid →
      e.status = "undone") ∧
    (∀ i e, findLastUndoable ((workerUndoFull cancel eid ops fs history).2.2) =
      some (i, e) → e.id ≠ eid) := by
  have hmark : (workerUndoFull cancel eid ops fs history).2.2 =
      markHistoryUndone eid history := by
    rw [workerUndoFull, if_pos hne]
  refine ⟨hmark, ?_, ?_⟩
  · rw [hmark]
    exact markHistoryUndone_status eid history huniq
  · intro i e hfind heid
    obtain ⟨hmem, hdone, _⟩ := findLastUndoable_mem _ i e hfind
    rw [hmark] at hmem
    have := markHistoryUndone_status eid history huniq e hmem heid
    rw [this] at hdone
    exact absurd hdone (by decide)

/-- Closed instance of C10: a cancelled-at-start undo of a fully-skipped batch
still leaves the entry ineligible. -/
theorem undo_marks_entry_done_forever_witness :
    (workerUndoFull (fun _ => true) "e1" [⟨⟨"d", "a"⟩, ⟨"d", "b"⟩⟩] []
        [⟨"e1", [⟨⟨"d", "a"⟩, ⟨"d", "b"⟩⟩], "done"⟩]).2.2 =
      markHistoryUndone "e1" [⟨"e1", [⟨⟨"d", "a"⟩, ⟨"d", "b"⟩⟩], "done"⟩] :=
  (undo_marks_entry_done_forever (fun _ => true) "e1" [⟨⟨"d", "a"⟩, ⟨"d", "b"⟩⟩]
    [] [⟨"e1", [⟨⟨"d", "a"⟩, ⟨"d", "b"⟩⟩], "done"⟩] (by decide) (by decide)).1

/-! ## Date resolver: capture-time failures fall back to modified time -/

/-- C9: when the EXIF read fails with a note, `_get_date_prefix` in `exif`
mode returns the modified-time date together with that note (a null date plus
the note when even `stat` fails) — for video containers the video-metadata
note takes precedence — and the plan builder keeps the note on the item while
building the base name from the fallback date. -/
theorem capture_time_fallback (env : Env) (p : FPath) (note : String)
    (hn : note ≠ "") (hx : env.exifDt p = (none, some note)) :
    (lowerStr (pathSuffix p.name) ∉ videoSuffixes →
      getDatePfx env p "exif" = (env.mstat p, some note)) ∧
    (∀ vn, vn ≠ "" → lowerStr (pathSuffix p.name) ∈ videoSuffixes →
      env.videoDt p = (none, some vn) →
      getDatePfx env p "exif" = (env.mstat p, some vn)) ∧
    (∀ (fs : FS) (st : BuildState) (dt : String) (final : String) (idx : Nat),
      hasAnyDatePfx p.name = false →
      getDatePfx env p "exif" = (some dt, some note) →
      resolveConflictAutoIndex (dt ++ "_" ++ p.name)
          ((st.exM p.dir).getD (listdirB fs p.dir))
          ((st.resM p.dir).getD (fun _ => false)) 999 = some (final, idx) →
      (buildStep env fs "exif" st p).1.status = "rename" ∧
      (buildStep env fs "exif" st p).1.note_code = some note ∧
      (buildStep env fs "exif" st p).1.base_name = some (dt ++ "_" ++ p.name) ∧
      (buildStep env fs "exif" st p).1.final_name = some final) := by
  refine ⟨?_, ?_, ?_⟩
  · intro hvid
    rw [getDatePfx]
    rw [if_neg (by decide), if_pos rfl, hx]
    rw [if_neg hvid]
    simp only [pyOrNote, if_neg hn]
    cases hm : env.mstat p <;> rfl
  · intro vn hvn hvid hveq
    rw [getDatePfx]
    rw [if_neg (by decide), if_pos rfl, hx]
    rw [if_pos hvid, hveq]
    simp only [pyOrNote, if_neg hvn]
    cases hm : env.mstat p <;> rfl
  · intro fs st dt final idx hpfx hdate hres
    rw [buildStep]
    rw [if_neg (by rw [hpfx]; exact Bool.false_ne_true)]
    rw [hdate]
    have hEeq : (match st.exM p.dir with
        | some e => (e, st.exM)
        | none => (listdirB fs p.dir, updateDir st.exM p.dir (listdirB fs p.dir))).1 =
        (st.exM p.dir).getD (listdirB fs p.dir) := by
      cases st.exM p.dir <;> rfl
    have hReq : (match st.resM p.dir with
        | some r => (r, st.resM)
        | none => ((fun _ => false), updateDir st.resM p.dir (fun _ => false))).1 =
        (st.resM p.dir).getD (fun _ => false) := by
      cases st.resM p.dir <;> rfl
    simp only [hEeq, hReq, hres]
    exact ⟨trivial, trivial, trivial, trivial⟩

/-- Closed instance of C9: a photo with unreadable EXIF and readable mtime is
planned from its modified-time date, note retained. -/
theorem capture_time_fallback_witness :
    getDatePfx
      (⟨fun _ => some "20230505", fun _ => none,
        fun _ => (none, some "exif_unavailable"), fun _ => (none, none)⟩ : Env)
      ⟨"d", "photo.jpg"⟩ "exif" = (some "20230505", some "exif_unavailable") := by
  have h := (capture_time_fallback
    (⟨fun _ => some "20230505", fun _ => none,
      fun _ => (none, some "exif_unavailable"), fun _ => (none, none)⟩ : Env)
    ⟨"d", "photo.jpg"⟩ "exif_unavailable" (by decide) rfl).1 (by decide)
  rw [h]

/-! ## The date-prefix marker survives planning -/

/-- The index `str.rfind` returns points at the sought character. -/
theorem lastIdxOf_get (c : Char) :
    ∀ (cs : List Char) (d : Nat), lastIdxOf cs c = some d → cs[d]? = some c := by
  intro cs
  induction cs with
  | nil => intro d h; simp [lastIdxOf] at h
  | cons a t ih =>
    intro d h
    rw [lastIdxOf] at h
    cases ht : lastIdxOf t c with
    | some i =>
      rw [ht] at h
      have : i + 1 = d := by simpa using h
      rw [← this]
      simpa using ih i ht
    | none =>
      rw [ht] at h
      by_cases hac : a = c
      · rw [if_pos hac] at h
        have : (0 : Nat) = d := by simpa using h
        rw [← this]
        simpa using hac
      · rw [if_neg hac] at h
        simp at h

/-- A date-marked name is at least nine characters long and its ninth
character is the underscore. -/
theorem hasDatePfxL_parts (cs : List Char) (h : hasDatePfxL cs = true) :
    (cs.take 8).all Char.isDigit = true ∧ cs[8]? = some '_' ∧ 8 < cs.length := by
  rw [hasDatePfxL, Bool.and_eq_true] at h
  have h2 : cs[8]? = some '_' := of_decide_eq_true h.2
  exact ⟨h.1, h2, (List.getElem?_eq_some.mp h2).1⟩

/-- Appending anything to a date-marked name keeps the marker. -/
theorem hasDatePfxL_append (a b : List Char) (h : hasDatePfxL a = true) :
    hasDatePfxL (a ++ b) = true := by
  obtain ⟨h1, h2, h3⟩ := hasDatePfxL_parts a h
  rw [hasDatePfxL, Bool.and_eq_true]
  constructor
  · rw [List.take_append_of_le_length (by omega)]
    exact h1
  · rw [List.getElem?_append]
    rw [if_pos h3, h2]
    simp

/-- Truncating a date-marked name anywhere at or after the ninth character
keeps the marker. -/
theorem hasDatePfxL_take (cs : List Char) (d : Nat) (hd : 9 ≤ d)
    (h : hasDatePfxL cs = true) : hasDatePfxL (cs.take d) = true := by
  obtain ⟨h1, h2, h3⟩ := hasDatePfxL_parts cs h
  rw [hasDatePfxL, Bool.and_eq_true]
  constructor
  · rw [List.take_take, min_eq_left (by omega)]
    exact h1
  · rw [List.getElem?_take, if_pos (by omega), h2]
    simp

/-- The split point `splitext` chooses on a date-marked name lies at or after
the ninth character: the first nine characters are digits and an underscore,
never a dot. -/
theorem splitextL_stem_of_marked (cs : List Char) (h : hasDatePfxL cs = true) :
    (splitextL cs).1 = cs ∨ ∃ d, 9 ≤ d ∧ (splitextL cs).1 = cs.take d := by
  obtain ⟨h1, h2, _⟩ := hasDatePfxL_parts cs h
  rw [splitextL]
  cases hlast : lastIdxOf cs '.' with
  | none => exact Or.inl rfl
  | some d =>
    dsimp only
    by_cases hany : (cs.take d).any (fun a => decide (a ≠ '.')) = true
    · rw [if_pos hany]
      right
      refine ⟨d, ?_, rfl⟩
      have hdot : cs[d]? = some '.' := lastIdxOf_get '.' cs d hlast
      by_contra hlt
      push_neg at hlt
      rcases Nat.lt_or_ge d 8 with hd8 | hd8
      · have hmem : '.' ∈ cs.take 8 := by
          have : (cs.take 8)[d]? = some '.' := by
            rw [List.getElem?_take, if_pos hd8, hdot]
          obtain ⟨hlt8, hget⟩ := List.getElem?_eq_some.mp this
          exact hget ▸ List.getElem_mem hlt8
        have := List.all_eq_true.mp h1 '.' hmem
        simp [Char.isDigit] at this
      · have hd8' : d = 8 := by omega
        rw [hd8'] at hdot
        rw [h2] at hdot
        simp at hdot
    · rw [if_neg hany]
      exact Or.inl rfl

/-- A resolved final name built from a date-marked base name is itself
date-marked: the suffix `_NNN` is inserted at or after the ninth character and
the marker survives. -/
theorem resolve_keeps_marker (base : String) (ex res : String → Bool) (n : Nat)
    (final : String) (k : Nat) (hb : hasAnyDatePfx base = true)
    (h : resolveConflictAutoIndex base ex res n = some (final, k)) :
    hasAnyDatePfx final = true := by
  rcases resolve_shape base ex res n final k h with rfl | hshape
  · exact hb
  · rw [hshape]
    rw [hasAnyDatePfx] at hb ⊢
    show hasDatePfxL ((splitext base).1 ++ "_" ++ pad3 k ++ (splitext base).2).data = true
    rw [String.data_append, String.data_append, String.data_append]
    have hstem : ((splitext base).1).data = (splitextL base.data).1 := rfl
    rw [hstem]
    rcases splitextL_stem_of_marked base.data hb with heq | ⟨d, hd, heq⟩
    · rw [heq, List.append_assoc, List.append_assoc]
      exact hasDatePfxL_append _ _ hb
    · rw [heq, List.append_assoc, List.append_assoc]
      exact hasDatePfxL_append _ _ (hasDatePfxL_take base.data d hd hb)

/-- A base name `date + '_' + original` built from an eight-digit date is
date-marked. -/
theorem date8_marks (dt orig : String) (h : isDate8 dt = true) :
    hasAnyDatePfx (dt ++ "_" ++ orig) = true := by
  rw [isDate8, Bool.and_eq_true] at h
  have hlen : dt.data.length = 8 := by
    have := h.1
    exact Nat.beq_eq_true_eq _ _ |>.mp this
  rw [hasAnyDatePfx]
  show hasDatePfxL ((dt ++ "_" ++ orig).data) = true
  rw [String.data_append, String.data_append]
  rw [hasDatePfxL, Bool.and_eq_true]
  constructor
  · rw [List.append_assoc, List.take_append_of_le_length (by omega),
      List.take_of_length_le (by omega)]
    exact h.2
  · rw [List.append_assoc, List.getElem?_append]
    have hnot : ¬(8 < dt.data.length) := by omega
    rw [if_neg hnot, hlen]
    have hu : "_".data = ['_'] := rfl
    rw [hu]
    simp

/-- Unfolding equation of the planning loop on a non-empty list. -/
theorem buildGo_cons (env : Env) (fs : FS) (ds : String) (p : FPath)
    (rest : List FPath) (st : BuildState) :
    buildGo env fs ds (p :: rest) st =
      ((buildStep env fs ds st p).1 ::
        (buildGo env fs ds rest (buildStep env fs ds st p).2).1,
       (buildGo env fs ds rest (buildStep env fs ds st p).2).2) := rfl

/-- A planned item with status `rename` comes out of the success path: its
file had no marker, its date resolved, and its final name is what the conflict
resolver returned for the base name `date + '_' + original`. -/
theorem buildStep_rename_shape (env : Env) (fs : FS) (ds : String)
    (st : BuildState) (p : FPath)
    (hst : (buildStep env fs ds st p).1.status = "rename") :
    hasAnyDatePfx p.name = false ∧
    ∃ dt note final idx,
      getDatePfx env p ds = (some dt, note) ∧
      resolveConflictAutoIndex (dt ++ "_" ++ p.name)
        ((st.exM p.dir).getD (listdirB fs p.dir))
        ((st.resM p.dir).getD (fun _ => false)) 999 = some (final, idx) ∧
      (buildStep env fs ds st p).1.final_name = some final ∧
      (buildStep env fs ds st p).1.conflict_index = idx ∧
      (buildStep env fs ds st p).1.base_name = some (dt ++ "_" ++ p.name) ∧
      (buildStep env fs ds st p).1.note_code = note := by
  by_cases hpfx : hasAnyDatePfx p.name = true
  · rw [buildStep, if_pos hpfx] at hst
    exact absurd (show ("skip_prefix" : String) = "rename" from hst) (by decide)
  · have hpfx' : hasAnyDatePfx p.name = false := Bool.eq_false_iff.mpr hpfx
    refine ⟨hpfx', ?_⟩
    rcases hgd : getDatePfx env p ds with ⟨od, note⟩
    cases od with
    | none =>
      rw [buildStep, if_neg hpfx, hgd] at hst
      exact absurd (show ("error" : String) = "rename" from hst) (by decide)
    | some dt =>
      have hEeq : (match st.exM p.dir with
          | some e => (e, st.exM)
          | none => (listdirB fs p.dir, updateDir st.exM p.dir (listdirB fs p.dir))).1 =
          (st.exM p.dir).getD (listdirB fs p.dir) := by
        cases st.exM p.dir <;> rfl
      have hReq : (match st.resM p.dir with
          | some r => (r, st.resM)
          | none => ((fun _ => false), updateDir st.resM p.dir (fun _ => false))).1 =
          (st.resM p.dir).getD (fun _ => false) := by
        cases st.resM p.dir <;> rfl
      cases hres : resolveConflictAutoIndex (dt ++ "_" ++ p.name)
          ((st.exM p.dir).getD (listdirB fs p.dir))
          ((st.resM p.dir).getD (fun _ => false)) 999 with
      | none =>
        rw [buildStep, if_neg hpfx, hgd] at hst
        dsimp only at hst
        rw [hEeq, hReq, hres] at hst
        exact absurd (show ("error" : String) = "rename" from hst) (by decide)
      | some pr =>
        obtain ⟨final, idx⟩ := pr
        have hstep1 : (buildStep env fs ds st p).1 =
            { path := p, original_name := p.name,
              base_name := some (dt ++ "_" ++ p.name), final_name := some final,
              status := "rename", note_code := note, conflict_index := idx,
              error := none } := by
          rw [buildStep, if_neg hpfx, hgd]
          dsimp only
          rw [hEeq, hReq, hres]
        exact ⟨dt, note, final, idx, rfl, hres, by rw [hstep1], by rw [hstep1],
          by rw [hstep1], by rw [hstep1]⟩

/-- C5: a file whose name matches the `YYYYMMDD_` marker is planned as
`skip_prefix` whatever the selected date source — its item keeps the original
name, no date or conflict work happens, and the per-directory planning state
is untouched; and every `rename` item's final name carries the marker itself
(dates are eight digits), so replanning the output of a previous run marks
everything `skip_prefix` and changes nothing. -/
theorem marker_skip_idempotent (env : Env) (fs : FS) (ds : String)
    (files : List FPath)
    (hdates : ∀ (p : FPath) (dt : String) (n : Option String),
      getDatePfx env p ds = (some dt, n) → isDate8 dt = true) :
    (∀ (st : BuildState) (p : FPath), hasAnyDatePfx p.name = true →
      buildStep env fs ds st p =
        ({ path := p, original_name := p.name, base_name := none,
           final_name := some p.name, status := "skip_prefix", note_code := none,
           conflict_index := 0, error := none }, st)) ∧
    (∀ it ∈ buildPlanItems env fs ds files, it.status = "rename" →
      ∃ f, it.final_name = some f ∧ hasAnyDatePfx f = true) := by
  constructor
  · intro st p hp
    rw [buildStep, if_pos hp]
  · have key : ∀ (fl : List FPath) (st : BuildState),
        ∀ it ∈ (buildGo env fs ds fl st).1, it.status = "rename" →
          ∃ f, it.final_name = some f ∧ hasAnyDatePfx f = true := by
      intro fl
      induction fl with
      | nil => intro st it hit; rw [buildGo] at hit; exact absurd hit (by simp)
      | cons p rest ih =>
        intro st it hit hst
        rw [buildGo_cons] at hit
        rcases List.mem_cons.mp hit with rfl | hmem
        · obtain ⟨hpfx, dt, note, final, idx, hgd, hres, hfin, _, _, _⟩ :=
            buildStep_rename_shape env fs ds st p hst
          refine ⟨final, hfin, ?_⟩
          have hd8 : isDate8 dt = true := hdates p dt note hgd
          exact resolve_keeps_marker _ _ _ _ _ _ (date8_marks dt p.name hd8) hres
        · exact ih (buildStep env fs ds st p).2 it hmem hst
    exact key files BuildState.empty

/-- Closed instance of C5: an already-marked file is skipped untouched, under
the `exif` date source as much as any other. -/
theorem marker_skip_idempotent_witness :
    buildStep
      (⟨fun _ => some "20240101", fun _ => none, fun _ => (none, none),
        fun _ => (none, none)⟩ : Env) [] "mtime" BuildState.empty
      ⟨"d", "20230101_report.txt"⟩ =
      ({ path := ⟨"d", "20230101_report.txt"⟩,
         original_name := "20230101_report.txt", base_name := none,
         final_name := some "20230101_report.txt", status := "skip_prefix",
         note_code := none, conflict_index := 0, error := none },
       BuildState.empty) :=
  (marker_skip_idempotent
    (⟨fun _ => some "20240101", fun _ => none, fun _ => (none, none),
      fun _ => (none, none)⟩ : Env) [] "mtime" []
    (fun p dt n h => by
      rw [getDatePfx, if_neg (by decide), if_neg (by decide)] at h
      dsimp only at h
      have h1 : some "20240101" = some dt := congrArg Prod.fst h
      have h2 : "20240101" = dt := by injection h1
      rw [← h2]
      decide)).1
    BuildState.empty ⟨"d", "20230101_report.txt"⟩ (by decide)

/-- C4: after a successful per-item resolution the planner reserves the final
name (`reserved_keys.add`) and simulates the rename in the existing set
(original discarded, final added) for the item's directory; consequently two
files planned in the same directory that both produce base name
`20240101_a.txt`, with no pre-existing file of that name, get conflict index 0
and then index 1 (suffix `_001`). -/
theorem reserve_and_simulate (env : Env) (fs : FS) (ds : String)
    (st : BuildState) (p : FPath) (dt : String) (note : Option String)
    (final : String) (idx : Nat)
    (hpfx : hasAnyDatePfx p.name = false)
    (hgd : getDatePfx env p ds = (some dt, note))
    (hres : resolveConflictAutoIndex (dt ++ "_" ++ p.name)
      ((st.exM p.dir).getD (listdirB fs p.dir))
      ((st.resM p.dir).getD (fun _ => false)) 999 = some (final, idx)) :
    ((buildStep env fs ds st p).2.resM p.dir =
        some (addName ((st.resM p.dir).getD (fun _ => false)) final) ∧
      addName ((st.resM p.dir).getD (fun _ => false)) final final = true ∧
      (∀ n, n ≠ final →
        addName ((st.resM p.dir).getD (fun _ => false)) final n =
          ((st.resM p.dir).getD (fun _ => false)) n)) ∧
    ((buildStep env fs ds st p).2.exM p.dir =
        some (addName
          (discardName ((st.exM p.dir).getD (listdirB fs p.dir)) p.name) final) ∧
      addName (discardName ((st.exM p.dir).getD (listdirB fs p.dir)) p.name)
        final final = true ∧
      (p.name ≠ final →
        addName (discardName ((st.exM p.dir).getD (listdirB fs p.dir)) p.name)
          final p.name = false) ∧
      (∀ n, n ≠ final → n ≠ p.name →
        addName (discardName ((st.exM p.dir).getD (listdirB fs p.dir)) p.name)
          final n = ((st.exM p.dir).getD (listdirB fs p.dir)) n)) ∧
    (buildStep env fs ds st p).1.final_name = some final ∧
    (buildStep env fs ds st p).1.conflict_index = idx ∧
    (List.map (fun it => (it.final_name, it.conflict_index))
      (buildPlanItems
        (⟨fun _ => some "20240101", fun _ => none, fun _ => (none, none),
          fun _ => (none, none)⟩ : Env)
        [⟨"d", "a.txt"⟩] "mtime" [⟨"d", "a.txt"⟩, ⟨"d", "a.txt"⟩]) =
      [(some "20240101_a.txt", 0), (some "20240101_a_001.txt", 1)]) := by
  have hpfx' : ¬hasAnyDatePfx p.name = true := by rw [hpfx]; exact Bool.false_ne_true
  have hEeq : (match st.exM p.dir with
      | some e => (e, st.exM)
      | none => (listdirB fs p.dir, updateDir st.exM p.dir (listdirB fs p.dir))).1 =
      (st.exM p.dir).getD (listdirB fs p.dir) := by
    cases st.exM p.dir <;> rfl
  have hReq : (match st.resM p.dir with
      | some r => (r, st.resM)
      | none => ((fun _ => false), updateDir st.resM p.dir (fun _ => false))).1 =
      (st.resM p.dir).getD (fun _ => false) := by
    cases st.resM p.dir <;> rfl
  have hstate : (buildStep env fs ds st p).2.resM p.dir =
      some (addName ((st.resM p.dir).getD (fun _ => false)) final) ∧
      (buildStep env fs ds st p).2.exM p.dir =
      some (addName
        (discardName ((st.exM p.dir).getD (listdirB fs p.dir)) p.name) final) ∧
      (buildStep env fs ds st p).1.final_name = some final ∧
      (buildStep env fs ds st p).1.conflict_index = idx := by
    rw [buildStep, if_neg hpfx', hgd]
    dsimp only
    rw [hEeq, hReq, hres]
    refine ⟨?_, ?_, rfl, rfl⟩
    · show updateDir _ p.dir _ p.dir = _
      rw [updateDir, if_pos rfl]
    · show updateDir _ p.dir _ p.dir = _
      rw [updateDir, if_pos rfl]
  refine ⟨⟨hstate.1, ?_, ?_⟩, ⟨hstate.2.1, ?_, ?_, ?_⟩, hstate.2.2.1,
    hstate.2.2.2, by decide⟩
  · rw [addName, if_pos rfl]
  · intro n hn; rw [addName, if_neg hn]
  · rw [addName, if_pos rfl]
  · intro hne
    rw [addName, if_neg hne, discardName, if_pos rfl]
  · intro n hn1 hn2
    rw [addName, if_neg hn1, discardName, if_neg hn2]

/-- Closed instance of C4: the first of the two identical-base files reserves
the unsuffixed name. -/
theorem reserve_and_simulate_witness :
    (buildStep
      (⟨fun _ => some "20240101", fun _ => none, fun _ => (none, none),
        fun _ => (none, none)⟩ : Env)
      [⟨"d", "a.txt"⟩] "mtime" BuildState.empty ⟨"d", "a.txt"⟩).2.resM "d" =
      some (addName ((BuildState.empty.resM "d").getD (fun _ => false))
        "20240101_a.txt") :=
  (reserve_and_simulate
    (⟨fun _ => some "20240101", fun _ => none, fun _ => (none, none),
      fun _ => (none, none)⟩ : Env)
    [⟨"d", "a.txt"⟩] "mtime" BuildState.empty ⟨"d", "a.txt"⟩ "20240101" none
    "20240101_a.txt" 0 (by decide) rfl (by decide)).1.1

/-! ## Dry-run neutrality of the executor -/

/-- A dry executor pass never touches the snapshot and never records an
operation. -/
theorem execGo_dry_pure (cancel : Nat → Bool) :
    ∀ (items : List PlanItem) (i : Nat) (fs : FS) (res : RenameResult)
      (ops : List Op),
      (execGo cancel true items i fs res ops).2.2 = fs ∧
      (execGo cancel true items i fs res ops).2.1 = ops := by
  intro items
  induction items with
  | nil => intro i fs res ops; exact ⟨rfl, rfl⟩
  | cons it rest ih =>
    intro i fs res ops
    rw [execGo]
    by_cases hc : cancel i = true
    · rw [if_pos hc]; exact ⟨rfl, rfl⟩
    · rw [if_neg hc]
      by_cases hsp : it.status = "skip_prefix"
      · rw [if_pos hsp]; exact ih (i + 1) fs _ ops
      · rw [if_neg hsp]
        by_cases herr : it.status = "error"
        · rw [if_pos herr]; exact ih (i + 1) fs _ ops
        · rw [if_neg herr]
          exact ih (i + 1) fs _ ops

/-- Under `renamesOk`, the real pass counts exactly the renames the dry pass
counts (whatever snapshot the dry side is shown). -/
theorem execGo_renamed_eq (cancel : Nat → Bool) :
    ∀ (items : List PlanItem) (i : Nat) (fs fs' : FS)
      (res res' : RenameResult) (ops ops' : List Op),
      res.renamed = res'.renamed →
      renamesOk cancel items i fs = true →
      (execGo cancel false items i fs res ops).1.renamed =
        (execGo cancel true items i fs' res' ops').1.renamed := by
  intro items
  induction items with
  | nil => intro i fs fs' res res' ops ops' hr _; exact hr
  | cons it rest ih =>
    intro i fs fs' res res' ops ops' hr hok
    rw [execGo, execGo]
    rw [renamesOk] at hok
    by_cases hc : cancel i = true
    · rw [if_pos hc, if_pos hc]
      exact hr
    · rw [if_neg hc, if_neg hc]
      rw [if_neg hc] at hok
      by_cases hsp : it.status = "skip_prefix"
      · rw [if_pos hsp, if_pos hsp]
        rw [if_pos hsp] at hok
        exact ih (i + 1) fs fs' _ _ ops ops' hr hok
      · rw [if_neg hsp, if_neg hsp]
        rw [if_neg hsp] at hok
        by_cases herr : it.status = "error"
        · rw [if_pos herr, if_pos herr]
          rw [if_pos herr] at hok
          exact ih (i + 1) fs fs' _ _ ops ops' hr hok
        · rw [if_neg herr, if_neg herr]
          rw [if_neg herr] at hok
          dsimp only at hok ⊢
          by_cases hmem : it.path ∈ fs
          · rw [if_pos hmem]
            rw [if_pos hmem] at hok
            refine ih (i + 1) _ fs' _ _ _ ops' ?_ hok
            by_cases hcf : it.conflict_index > 0
            · rw [if_pos hcf, if_pos hcf]
              exact congrArg (· + 1) hr
            · rw [if_neg hcf, if_neg hcf]
              exact congrArg (· + 1) hr
          · rw [if_neg hmem] at hok
            exact absurd hok Bool.false_ne_true
            
/-- C6: executing a plan with `dry_run` mutates nothing (snapshot unchanged,
no operation records), and — when the real run's renames all succeed, i.e. no
interference removed a source path — it reports exactly the `renamed` count
the real run reports. -/
theorem dry_run_neutral (cancel : Nat → Bool) (items : List PlanItem) (fs : FS)
    (hok : renamesOk cancel items 1 fs = true) :
    (execPlan cancel true items fs).2.2 = fs ∧
    (execPlan cancel true items fs).2.1 = [] ∧
    (execPlan cancel false items fs).1.renamed =
      (execPlan cancel true items fs).1.renamed := by
  refine ⟨(execGo_dry_pure cancel items 1 fs _ []).1,
    (execGo_dry_pure cancel items 1 fs _ []).2, ?_⟩
  exact execGo_renamed_eq cancel items 1 fs fs _ _ [] [] rfl hok

/-- Closed instance of C6: one renameable file, dry run reports the same count
as the real run and leaves the snapshot alone. -/
theorem dry_run_neutral_witness :
    (execPlan (fun _ => false) true
        [{ path := ⟨"d", "a.txt"⟩, original_name := "a.txt",
           base_name := some "20240101_a.txt",
           final_name := some "20240101_a.txt", status := "rename",
           note_code := none, conflict_index := 0, error := none }]
        [⟨"d", "a.txt"⟩]).2.2 = [⟨"d", "a.txt"⟩] ∧
    (execPlan (fun _ => false) false
        [{ path := ⟨"d", "a.txt"⟩, original_name := "a.txt",
           base_name := some "20240101_a.txt",
           final_name := some "20240101_a.txt", status := "rename",
           note_code := none, conflict_index := 0, error := none }]
        [⟨"d", "a.txt"⟩]).1.renamed =
      (execPlan (fun _ => false) true
        [{ path := ⟨"d", "a.txt"⟩, original_name := "a.txt",
           base_name := some "20240101_a.txt",
           final_name := some "20240101_a.txt", status := "rename",
           note_code := none, conflict_index := 0, error := none }]
        [⟨"d", "a.txt"⟩]).1.renamed := by
  have h := dry_run_neutral (fun _ => false)
    [{ path := ⟨"d", "a.txt"⟩, original_name := "a.txt",
       base_name := some "20240101_a.txt",
       final_name := some "20240101_a.txt", status := "rename",
       note_code := none, conflict_index := 0, error := none }]
    [⟨"d", "a.txt"⟩] (by decide)
  exact ⟨h.1, h.2.2⟩

/-! ## Round-trip undo -/

/-- Membership in a renamed snapshot. -/
theorem mem_renameFS (fs : FS) (src dst q : FPath) :
    q ∈ renameFS fs src dst ↔ q = dst ∨ (q ∈ fs ∧ q ≠ src) := by
  rw [renameFS]
  simp [List.mem_filter]

/-- Without a cancellation signal the undo loop ignores its progress index. -/
theorem undoGo_idx_irrel :
    ∀ (l : List Op) (idx idx' : Nat) (fs : FS) (r : UndoRes),
      undoGo (fun _ => false) l idx fs r = undoGo (fun _ => false) l idx' fs r := by
  intro l
  induction l with
  | nil => intro idx idx' fs r; rfl
  | cons op rest ih =>
    intro idx idx' fs r
    rw [undoGo, undoGo]
    rw [if_neg (Bool.false_ne_true), if_neg (Bool.false_ne_true)]
    by_cases hnew : op.new ∉ fs
    · rw [if_pos hnew, if_pos hnew]; exact ih _ _ _ _
    · rw [if_neg hnew, if_neg hnew]
      by_cases hold : op.old ∈ fs
      · rw [if_pos hold, if_pos hold]; exact ih _ _ _ _
      · rw [if_neg hold, if_neg hold]; exact ih _ _ _ _

/-- Without cancellation the undo loop splits over list concatenation. -/
theorem undoGo_append :
    ∀ (l1 l2 : List Op) (idx : Nat) (fs : FS) (r : UndoRes),
      undoGo (fun _ => false) (l1 ++ l2) idx fs r =
        undoGo (fun _ => false) l2 idx
          (undoGo (fun _ => false) l1 idx fs r).2
          (undoGo (fun _ => false) l1 idx fs r).1 := by
  intro l1
  induction l1 with
  | nil => intro l2 idx fs r; rfl
  | cons op rest ih =>
    intro l2 idx fs r
    rw [List.cons_append, undoGo, undoGo]
    rw [if_neg (Bool.false_ne_true), if_neg (Bool.false_ne_true)]
    by_cases hnew : op.new ∉ fs
    · rw [if_pos hnew, if_pos hnew]
      rw [ih l2 (idx + 1) fs _]
      rw [undoGo_idx_irrel rest (idx + 1) idx,
        undoGo_idx_irrel l2 (idx + 1) idx]
    · rw [if_neg hnew, if_neg hnew]
      by_cases hold : op.old ∈ fs
      · rw [if_pos hold, if_pos hold]
        rw [ih l2 (idx + 1) fs _]
        rw [undoGo_idx_irrel rest (idx + 1) idx,
          undoGo_idx_irrel l2 (idx + 1) idx]
      · rw [if_neg hold, if_neg hold]
        rw [ih l2 (idx + 1) _ _]
        rw [undoGo_idx_irrel rest (idx + 1) idx,
          undoGo_idx_irrel l2 (idx + 1) idx]

/-- Core round trip: undoing a valid trace in reverse order on the snapshot
the trace produced restores every operation (none skipped, none failing) and
returns to the original snapshot, up to set equality. -/
theorem undo_roundtrip :
    ∀ (ops : List Op) (fs F : FS) (r : UndoRes) (idx : Nat),
      validTrace ops fs = true →
      sameFS F (applyOps ops fs) →
      (undoGo (fun _ => false) ops.reverse idx F r).1 =
        { r with restored := r.restored + ops.length } ∧
      sameFS (undoGo (fun _ => false) ops.reverse idx F r).2 fs := by
  intro ops
  induction ops with
  | nil =>
    intro fs F r idx _ hF
    refine ⟨?_, hF⟩
    show r = _
    cases r
    rfl
  | cons o rest ih =>
    intro fs F r idx hvt hF
    have hvt' : decide (o.old ∈ fs) = true ∧ (!decide (o.new ∈ fs)) = true ∧
        validTrace rest (applyOp fs o) = true := by
      rw [validTrace, Bool.and_eq_true, Bool.and_eq_true] at hvt
      exact ⟨hvt.1.1, hvt.1.2, hvt.2⟩
    have hold : o.old ∈ fs := of_decide_eq_true hvt'.1
    have hnew : o.new ∉ fs := by
      have := hvt'.2.1
      rw [Bool.not_eq_true'] at this
      exact of_decide_eq_false this
    have hFapp : sameFS F (applyOps rest (applyOp fs o)) := hF
    obtain ⟨hr1, hfs1⟩ := ih (applyOp fs o) F r idx hvt'.2.2 hFapp
    rw [List.reverse_cons, undoGo_append]
    set G := (undoGo (fun _ => false) rest.reverse idx F r).2 with hG
    set r1 := (undoGo (fun _ => false) rest.reverse idx F r).1 with hr1d
    have hnewG : o.new ∈ G := by
      have : o.new ∈ applyOp fs o := by
        rw [applyOp, mem_renameFS]
        exact Or.inl rfl
      exact (hfs1 o.new).mpr this
    have holdG : o.old ∉ G := by
      intro hmem
      have : o.old ∈ applyOp fs o := (hfs1 o.old).mp hmem
      rw [applyOp, mem_renameFS] at this
      rcases this with h | h
      · exact hnew (h ▸ hold)
      · exact h.2 rfl
    rw [undoGo]
    rw [if_neg (Bool.false_ne_true)]
    rw [if_neg (by simpa using hnewG), if_neg holdG]
    constructor
    · show (undoGo (fun _ => false) [] (idx + 1) _ _).1 = _
      rw [undoGo]
      rw [hr1]
      show ({ r with restored := r.restored + rest.length + 1 } : UndoRes) = _
      rw [List.length_cons]
      have : r.restored + rest.length + 1 = r.restored + (rest.length + 1) := by
        omega
      rw [this]
    · show sameFS (undoGo (fun _ => false) [] (idx + 1)
        (renameFS G o.new o.old) _).2 fs
      rw [undoGo]
      intro q
      rw [mem_renameFS]
      constructor
      · rintro (rfl | ⟨hq, hqne⟩)
        · exact hold
        · have := (hfs1 q).mp hq
          rw [applyOp, mem_renameFS] at this
          rcases this with h | h
          · exact absurd h hqne
          · exact h.1
      · intro hq
        by_cases hqo : q = o.old
        · exact Or.inl hqo
        · right
          have hqnew : q ≠ o.new := by
            intro h
            exact hnew (h ▸ hq)
          refine ⟨?_, hqnew⟩
          apply (hfs1 q).mpr
          rw [applyOp, mem_renameFS]
          exact Or.inr ⟨hq, hqo⟩

/-- Unfolding of `os.listdir` membership. -/
theorem listdirB_mem (fs : FS) (d n : String) :
    listdirB fs d n = true ↔ FPath.mk d n ∈ fs := by
  simp [listdirB]

/-- Lazily initialising a directory's existing-name set from the current
snapshot preserves synchronisation, and the set read off is synchronised. -/
theorem dirSync_init (exM : DirSets) (fs : FS) (par : String)
    (hsync : dirSync exM fs) :
    dirSync ((match exM par with
      | some e => (e, exM)
      | none => (listdirB fs par, updateDir exM par (listdirB fs par))).2) fs ∧
    (∀ n, (((match exM par with
      | some e => (e, exM)
      | none => (listdirB fs par, updateDir exM par (listdirB fs par))).1) n = true ↔
        FPath.mk par n ∈ fs)) := by
  cases hx : exM par with
  | some e =>
    exact ⟨hsync, fun n => hsync par e hx n⟩
  | none =>
    constructor
    · intro d E hE n
      simp only [updateDir] at hE
      by_cases hd : d = par
      · rw [if_pos hd] at hE
        have hEe : some (listdirB fs par) = some E := hE
        have : listdirB fs par = E := by injection hEe
        rw [← this, hd]
        exact listdirB_mem fs par n
      · rw [if_neg hd] at hE
        exact hsync d E hE n
    · intro n
      exact listdirB_mem fs par n

/-- After a rename inside directory `p.dir`, the recorded set for that
directory updated by `discard original; add final` — and every other
directory's recorded set — still describes the renamed snapshot. -/
theorem dirSync_rename (exM : DirSets) (fs : FS) (p : FPath) (final : String)
    (hsync : dirSync exM fs)
    (hE : ∀ n, ((exM p.dir).getD (listdirB fs p.dir)) n = true ↔
      FPath.mk p.dir n ∈ fs) :
    dirSync
      (updateDir exM p.dir
        (addName (discardName ((exM p.dir).getD (listdirB fs p.dir)) p.name) final))
      (renameFS fs p (FPath.mk p.dir final)) := by
  intro d E hEd n
  simp only [updateDir] at hEd
  by_cases hd : d = p.dir
  · rw [if_pos hd] at hEd
    have hEe : addName (discardName ((exM p.dir).getD (listdirB fs p.dir)) p.name)
        final = E := by injection hEd
    rw [← hEe, hd, mem_renameFS]
    simp only [addName, discardName]
    by_cases hnf : n = final
    · rw [if_pos hnf, hnf]
      constructor
      · intro _; exact Or.inl rfl
      · intro _; rfl
    · rw [if_neg hnf]
      by_cases hnp : n = p.name
      · rw [if_pos hnp]
        constructor
        · intro h; exact absurd h Bool.false_ne_true
        · rintro (h | ⟨_, hne⟩)
          · exact absurd (show n = final from by
              have := congrArg FPath.name h
              simpa using this) hnf
          · exact absurd (show FPath.mk p.dir n = p from by rw [hnp]) hne
      · rw [if_neg hnp]
        rw [hE n]
        constructor
        · intro hmem
          refine Or.inr ⟨hmem, fun hq => hnp ?_⟩
          have := congrArg FPath.name hq
          simpa using this
        · rintro (h | ⟨hmem, _⟩)
          · exact absurd (show n = final from by
              have := congrArg FPath.name h
              simpa using this) hnf
          · exact hmem
  · rw [if_neg hd] at hEd
    rw [hsync d E hEd n, mem_renameFS]
    constructor
    · intro hmem
      refine Or.inr ⟨hmem, fun hq => hd ?_⟩
      have := congrArg FPath.dir hq
      simpa using this
    · rintro (h | ⟨hmem, _⟩)
      · exact absurd (show d = p.dir from by
          have := congrArg FPath.dir h
          simpa using this) hd
      · exact hmem

/-- Bridge: a non-dry 8.6 worker pass over pairwise-distinct files enumerated
from the snapshot executes a valid trace: every recorded rename moved a
then-existing source (no marker, so no earlier rename consumed it) to a
then-fresh destination (guaranteed by the conflict resolver through the
synchronised existing-name sets), the final snapshot is the trace applied to
the initial one, and `renamed` counts exactly the recorded operations. -/
theorem worker86_trace (mdate : FPath → Option String) (cancel : Nat → Bool) :
    ∀ (remaining : List FPath) (idx : Nat) (fs : FS) (exM resM : DirSets)
      (res : RenameResult) (ops0 : List Op),
      remaining.Nodup →
      (∀ q ∈ remaining, hasAnyDatePfx q.name = false → q ∈ fs) →
      dirSync exM fs →
      ∃ newOps,
        (worker86Go mdate cancel false remaining idx fs exM resM res ops0).2.1 =
          ops0 ++ newOps ∧
        validTrace newOps fs = true ∧
        (worker86Go mdate cancel false remaining idx fs exM resM res ops0).2.2 =
          applyOps newOps fs ∧
        (worker86Go mdate cancel false remaining idx fs exM resM res ops0).1.renamed =
          res.renamed + newOps.length := by
  intro remaining
  induction remaining with
  | nil =>
    intro idx fs exM resM res ops0 _ _ _
    exact ⟨[], (List.append_nil ops0).symm, rfl, rfl, rfl⟩
  | cons p rest ih =>
    intro idx fs exM resM res ops0 hnd hrem hsync
    rw [worker86Go]
    by_cases hc : cancel idx = true
    · rw [if_pos hc]
      exact ⟨[], (List.append_nil ops0).symm, rfl, rfl, rfl⟩
    · rw [if_neg hc]
      by_cases hpfx : hasAnyDatePfx p.name = true
      · rw [if_pos hpfx]
        exact ih (idx + 1) fs exM resM _ ops0 (List.Nodup.of_cons hnd)
          (fun q hq => hrem q (List.mem_cons_of_mem p hq)) hsync
      · rw [if_neg hpfx]
        have hpfs : p ∈ fs :=
          hrem p (List.mem_cons_self p rest) (Bool.eq_false_iff.mpr hpfx)
        cases hmd : mdate p with
        | none =>
          dsimp only
          exact ih (idx + 1) fs exM resM _ ops0 (List.Nodup.of_cons hnd)
            (fun q hq => hrem q (List.mem_cons_of_mem p hq)) hsync
        | some dt =>
          dsimp only
          obtain ⟨hsyncI, hEI⟩ := dirSync_init exM fs p.dir hsync
          have hEeq : (match exM p.dir with
              | some e => (e, exM)
              | none => (listdirB fs p.dir, updateDir exM p.dir (listdirB fs p.dir))).1 =
              (exM p.dir).getD (listdirB fs p.dir) := by
            cases exM p.dir <;> rfl
          have hReq : (match resM p.dir with
              | some r => (r, resM)
              | none => ((fun _ => false), updateDir resM p.dir (fun _ => false))).1 =
              (resM p.dir).getD (fun _ => false) := by
            cases resM p.dir <;> rfl
          rw [hEeq, hReq]
          have hEI' : ∀ n, (((exM p.dir).getD (listdirB fs p.dir)) n = true ↔
              FPath.mk p.dir n ∈ fs) := by
            intro n; rw [← hEeq]; exact hEI n
          cases hres : resolveConflictAutoIndex (dt ++ "_" ++ p.name)
              ((exM p.dir).getD (listdirB fs p.dir))
              ((resM p.dir).getD (fun _ => false)) 999 with
          | none =>
            dsimp only
            exact ih (idx + 1) fs _ _ _ ops0 (List.Nodup.of_cons hnd)
              (fun q hq => hrem q (List.mem_cons_of_mem p hq)) hsyncI
          | some pr =>
            obtain ⟨final, sidx⟩ := pr
            dsimp only
            rw [if_neg (Bool.false_ne_true), if_pos hpfs]
            have hexfree : ((exM p.dir).getD (listdirB fs p.dir)) final = false :=
              (resolve_not_existing _ _ _ _ _ _ hres).1
            have hdstfs : FPath.mk p.dir final ∉ fs := by
              intro hmem
              have := (hEI' final).mpr hmem
              rw [hexfree] at this
              exact Bool.false_ne_true this
            have hsameI : (match exM p.dir with
                | some e => (e, exM)
                | none => (listdirB fs p.dir, updateDir exM p.dir (listdirB fs p.dir))).2
                  p.dir = some ((exM p.dir).getD (listdirB fs p.dir)) := by
              cases hx : exM p.dir with
              | some e => exact hx
              | none => simp [updateDir]
            have hEII : ∀ n, ((((match exM p.dir with
                | some e => (e, exM)
                | none => (listdirB fs p.dir,
                    updateDir exM p.dir (listdirB fs p.dir))).2 p.dir).getD
                  (listdirB fs p.dir)) n = true ↔ FPath.mk p.dir n ∈ fs) := by
              intro n
              rw [hsameI]
              exact hEI' n
            have hs' := dirSync_rename
              ((match exM p.dir with
                | some e => (e, exM)
                | none => (listdirB fs p.dir,
                    updateDir exM p.dir (listdirB fs p.dir))).2)
              fs p final hsyncI hEII
            simp only [hsameI, Option.getD_some] at hs'
            have hrem' : ∀ q ∈ rest, hasAnyDatePfx q.name = false →
                q ∈ renameFS fs p (FPath.mk p.dir final) := by
              intro q hq hqpfx
              have hqfs : q ∈ fs := hrem q (List.mem_cons_of_mem p hq) hqpfx
              have hqp : q ≠ p := by
                intro h
                exact (List.nodup_cons.mp hnd).1 (h ▸ hq)
              rw [mem_renameFS]
              exact Or.inr ⟨hqfs, hqp⟩
            obtain ⟨newOps', h1, h2, h3, h4⟩ := ih (idx + 1)
              (renameFS fs p (FPath.mk p.dir final))
              (updateDir (match exM p.dir with
                | some e => (e, exM)
                | none => (listdirB fs p.dir,
                    updateDir exM p.dir (listdirB fs p.dir))).2 p.dir
                (addName (discardName ((exM p.dir).getD (listdirB fs p.dir)) p.name)
                  final))
              (updateDir (match resM p.dir with
                | some r => (r, resM)
                | none => ((fun _ => false),
                    updateDir resM p.dir (fun _ => false))).2 p.dir
                (addName ((resM p.dir).getD (fun _ => false)) final))
              { (if sidx > 0 then
                  { res with conflicts := res.conflicts + 1 } else res) with
                renamed := (if sidx > 0 then
                  { res with conflicts := res.conflicts + 1 } else res).renamed + 1 }
              (ops0 ++ [⟨p, FPath.mk p.dir final⟩])
              (List.Nodup.of_cons hnd) hrem' hs'
            refine ⟨⟨p, FPath.mk p.dir final⟩ :: newOps', ?_, ?_, ?_, ?_⟩
            · rw [h1, List.append_assoc]
              rfl
            · show (decide (p ∈ fs) && !(decide (FPath.mk p.dir final ∈ fs)) &&
                validTrace newOps' (renameFS fs p (FPath.mk p.dir final))) = true
              rw [decide_eq_true hpfs, decide_eq_false hdstfs, h2]
              rfl
            · exact h3
            · rw [h4]
              have hconf : (if sidx > 0 then
                  { res with conflicts := res.conflicts + 1 } else res).renamed =
                  res.renamed := by
                by_cases hs : sidx > 0
                · rw [if_pos hs]
                · rw [if_neg hs]
              rw [List.length_cons]
              rw [show ({ (if sidx > 0 then
                  { res with conflicts := res.conflicts + 1 } else res) with
                renamed := (if sidx > 0 then
                  { res with conflicts := res.conflicts + 1 } else res).renamed + 1 }
                  : RenameResult).renamed = (if sidx > 0 then
                  { res with conflicts := res.conflicts + 1 } else res).renamed + 1
                from rfl]
              rw [hconf]
              omega

/-- The filter pass keeps a sublist of the enumerated files. -/
theorem applyNameFilter_sublist (exts : List String) (inc exc : String)
    (files : List FPath) :
    ((applyNameFilter exts inc exc files).1).Sublist files := by
  rw [applyNameFilter]
  by_cases h : exts ≠ [] ∨ inc ≠ "" ∨ exc ≠ ""
  · rw [if_pos h]
    exact List.filter_sublist files
  · rw [if_neg h]

/-- C2: executing a non-dry batch with the 8.6 worker on files enumerated
from the snapshot (pairwise distinct, all present) and then undoing its
recorded operations with no interference restores the original snapshot
exactly: every one of the N executed renames is restored, none skipped, no
errors — and N is the worker's own `renamed` count. -/
theorem undo_restores_batch (mdate : FPath → Option String) (cancel : Nat → Bool)
    (exts : List String) (inc exc : String) (files : List FPath) (fs : FS)
    (hnd : files.Nodup) (hsub : ∀ q ∈ files, q ∈ fs) :
    (workerUndo (fun _ => false)
        (worker86 mdate cancel false exts inc exc files fs).2.1
        (worker86 mdate cancel false exts inc exc files fs).2.2).1 =
      ⟨(worker86 mdate cancel false exts inc exc files fs).2.1.length, 0, 0,
       (worker86 mdate cancel false exts inc exc files fs).2.1.length, false⟩ ∧
    sameFS (workerUndo (fun _ => false)
        (worker86 mdate cancel false exts inc exc files fs).2.1
        (worker86 mdate cancel false exts inc exc files fs).2.2).2 fs ∧
    (worker86 mdate cancel false exts inc exc files fs).1.renamed =
      (worker86 mdate cancel false exts inc exc files fs).2.1.length := by
  have hsubl : ((applyNameFilter exts inc exc files).1).Sublist files :=
    applyNameFilter_sublist exts inc exc files
  have hknd : ((applyNameFilter exts inc exc files).1).Nodup := hsubl.nodup hnd
  have hkrem : ∀ q ∈ (applyNameFilter exts inc exc files).1,
      hasAnyDatePfx q.name = false → q ∈ fs :=
    fun q hq _ => hsub q (hsubl.subset hq)
  have hsync0 : dirSync (fun _ => none) fs := fun d E hE => Option.noConfusion hE
  obtain ⟨ops, h1, h2, h3, h4⟩ := worker86_trace mdate cancel
    ((applyNameFilter exts inc exc files).1) 1 fs (fun _ => none) (fun _ => none)
    { RenameResult.init with
      filtered := (applyNameFilter exts inc exc files).2,
      total := ((applyNameFilter exts inc exc files).1).length } []
    hknd hkrem hsync0
  rw [List.nil_append] at h1
  have hw : worker86 mdate cancel false exts inc exc files fs =
      worker86Go mdate cancel false ((applyNameFilter exts inc exc files).1) 1 fs
        (fun _ => none) (fun _ => none)
        { RenameResult.init with
          filtered := (applyNameFilter exts inc exc files).2,
          total := ((applyNameFilter exts inc exc files).1).length } [] := rfl
  rw [hw, h1, h3]
  obtain ⟨hr, hfs⟩ := undo_roundtrip ops fs (applyOps ops fs)
    ⟨0, 0, 0, ops.length, false⟩ 1 h2 (fun q => Iff.rfl)
  refine ⟨?_, hfs, ?_⟩
  · show (undoGo (fun _ => false) ops.reverse 1 (applyOps ops fs)
      ⟨0, 0, 0, ops.length, false⟩).1 = ⟨ops.length, 0, 0, ops.length, false⟩
    rw [hr]
    show (⟨0 + ops.length, 0, 0, ops.length, false⟩ : UndoRes) = _
    rw [Nat.zero_add]
  · rw [h4]
    exact Nat.zero_add ops.length

/-- Closed instance of C2: a three-file directory (one already marked, two
renamed) round-trips exactly. -/
theorem undo_restores_batch_witness :
    (workerUndo (fun _ => false)
        (worker86 (fun _ => some "20240101") (fun _ => false) false [] "" ""
          [⟨"t", "x.txt"⟩, ⟨"t", "x_001.txt"⟩, ⟨"t", "20240101_x.txt"⟩]
          [⟨"t", "x.txt"⟩, ⟨"t", "x_001.txt"⟩, ⟨"t", "20240101_x.txt"⟩]).2.1
        (worker86 (fun _ => some "20240101") (fun _ => false) false [] "" ""
          [⟨"t", "x.txt"⟩, ⟨"t", "x_001.txt"⟩, ⟨"t", "20240101_x.txt"⟩]
          [⟨"t", "x.txt"⟩, ⟨"t", "x_001.txt"⟩, ⟨"t", "20240101_x.txt"⟩]).2.2).1 =
      ⟨(worker86 (fun _ => some "20240101") (fun _ => false) false [] "" ""
          [⟨"t", "x.txt"⟩, ⟨"t", "x_001.txt"⟩, ⟨"t", "20240101_x.txt"⟩]
          [⟨"t", "x.txt"⟩, ⟨"t", "x_001.txt"⟩, ⟨"t", "20240101_x.txt"⟩]).2.1.length,
       0, 0,
       (worker86 (fun _ => some "20240101") (fun _ => false) false [] "" ""
          [⟨"t", "x.txt"⟩, ⟨"t", "x_001.txt"⟩, ⟨"t", "20240101_x.txt"⟩]
          [⟨"t", "x.txt"⟩, ⟨"t", "x_001.txt"⟩, ⟨"t", "20240101_x.txt"⟩]).2.1.length,
       false⟩ :=
  (undo_restores_batch (fun _ => some "20240101") (fun _ => false) [] "" ""
    [⟨"t", "x.txt"⟩, ⟨"t", "x_001.txt"⟩, ⟨"t", "20240101_x.txt"⟩]
    [⟨"t", "x.txt"⟩, ⟨"t", "x_001.txt"⟩, ⟨"t", "20240101_x.txt"⟩]
    (by decide) (by decide)).1

/-! ## Sorting and determinism of the v2.0 plan build -/

/-- Two sorted-by-full-path lists that are permutations of each other are
equal, provided the full path determines the file among the listed ones. -/
theorem sorted_perm_eq_of_inj :
    ∀ (l1 l2 : List FPath), l1.Perm l2 →
      List.Sorted (fun a b => fullPath a ≤ fullPath b) l1 →
      List.Sorted (fun a b => fullPath a ≤ fullPath b) l2 →
      (∀ a ∈ l1, ∀ b ∈ l1, fullPath a = fullPath b → a = b) →
      l1 = l2 := by
  intro l1
  induction l1 with
  | nil => intro l2 hp _ _ _; exact hp.nil_eq
  | cons a t1 ih =>
    intro l2 hp hs1 hs2 hinj
    cases l2 with
    | nil => exact absurd hp.symm.nil_eq (by simp)
    | cons b t2 =>
      have hab : a = b := by
        have hain : a ∈ b :: t2 := hp.mem_iff.mp (List.mem_cons_self a t1)
        have hbin : b ∈ a :: t1 := hp.mem_iff.mpr (List.mem_cons_self b t2)
        rcases List.mem_cons.mp hain with h | hat2
        · exact h
        · rcases List.mem_cons.mp hbin with h | hbt1
          · exact h.symm
          · have h1 : fullPath a ≤ fullPath b :=
              List.rel_of_sorted_cons hs1 b hbt1
            have h2 : fullPath b ≤ fullPath a :=
              List.rel_of_sorted_cons hs2 a hat2
            exact hinj a (List.mem_cons_self a t1) b hbin (le_antisymm h1 h2)
      rw [hab] at hp hs1 hinj ⊢
      have ht : t1 = t2 :=
        ih t2 hp.cons_inv hs1.of_cons hs2.of_cons
          (fun x hx y hy =>
            hinj x (List.mem_cons_of_mem b hx) y (List.mem_cons_of_mem b hy))
      rw [ht]

/-- The sort of `_iter_files_tolerant` produces a list sorted by full
path. -/
theorem sortFiles_sorted (l : List FPath) :
    List.Sorted (fun a b => fullPath a ≤ fullPath b) (sortFiles l) := by
  have h := @List.sorted_mergeSort FPath
    (fun a b : FPath => decide (fullPath a ≤ fullPath b))
    (fun a b c h1 h2 => by
      rw [decide_eq_true_eq] at h1 h2 ⊢
      exact le_trans h1 h2)
    (fun a b => by
      dsimp only
      rcases le_total (fullPath a) (fullPath b) with h | h
      · rw [decide_eq_true h]; rfl
      · rw [decide_eq_true h]; simp)
    l
  exact h.imp (fun hab => of_decide_eq_true hab)

/-- C1 (amended): AutoRenamer_v2.0's pipeline is listing-order independent —
two enumerations of the same snapshot (in whatever order the OS yields them)
produce the same sorted candidate list, hence bit-identical plans and
`final_name` assignments, provided the sort key `str(p)` separates the files.
In rename_files_gui_optimized8.6 the worker has no such sort (see the
counterexample). -/
theorem plan_build_order_independent (env : Env) (fs : FS) (ds : String)
    (exts : List String) (inc exc : String) (l1 l2 : List FPath)
    (hperm : l1.Perm l2)
    (hinj : ∀ a ∈ l1, ∀ b ∈ l1, fullPath a = fullPath b → a = b) :
    sortFiles l1 = sortFiles l2 ∧
    buildPlanItems env fs ds ((applyNameFilter exts inc exc (sortFiles l1)).1) =
      buildPlanItems env fs ds ((applyNameFilter exts inc exc (sortFiles l2)).1) := by
  have hsort : sortFiles l1 = sortFiles l2 := by
    apply sorted_perm_eq_of_inj (sortFiles l1) (sortFiles l2)
    · exact ((l1.mergeSort_perm _).trans hperm).trans (l2.mergeSort_perm _).symm
    · exact sortFiles_sorted l1
    · exact sortFiles_sorted l2
    · intro x hx y hy
      have hx1 : x ∈ l1 := ((l1.mergeSort_perm _).mem_iff).mp hx
      have hy1 : y ∈ l1 := ((l1.mergeSort_perm _).mem_iff).mp hy
      exact hinj x hx1 y hy1
  exact ⟨hsort, by rw [hsort]⟩

/-- Closed instance of the amended C1: two listing orders of the same
three-file snapshot sort identically. -/
theorem plan_build_order_independent_witness :
    sortFiles [⟨"t", "x_001.txt"⟩, ⟨"t", "x.txt"⟩, ⟨"t", "20240101_x.txt"⟩] =
      sortFiles [⟨"t", "x.txt"⟩, ⟨"t", "x_001.txt"⟩, ⟨"t", "20240101_x.txt"⟩] :=
  (plan_build_order_independent
    (⟨fun _ => some "20240101", fun _ => none, fun _ => (none, none),
      fun _ => (none, none)⟩ : Env) [] "mtime" [] "" ""
    [⟨"t", "x_001.txt"⟩, ⟨"t", "x.txt"⟩, ⟨"t", "20240101_x.txt"⟩]
    [⟨"t", "x.txt"⟩, ⟨"t", "x_001.txt"⟩, ⟨"t", "20240101_x.txt"⟩]
    (List.Perm.swap (⟨"t", "x.txt"⟩ : FPath) ⟨"t", "x_001.txt"⟩ [⟨"t", "20240101_x.txt"⟩])
    (by decide)).1

/-- C1 counterexample: the 8.6 worker (`_worker_run`, which enumerates with
`iterdir`/`rglob` and never sorts) assigns the file `t/x.txt` the final name
`20240101_x_001.txt` under one listing order of the snapshot
`{x.txt, x_001.txt, 20240101_x.txt}` and `20240101_x_002.txt` under another —
so the candidate set is not sorted before conflict resolution there, and
conflict-index assignment is not stable across listing orders. -/
theorem worker86_order_dependent_cx :
    ([⟨"t", "x_001.txt"⟩, ⟨"t", "x.txt"⟩, ⟨"t", "20240101_x.txt"⟩] : List FPath).Perm
      [⟨"t", "x.txt"⟩, ⟨"t", "x_001.txt"⟩, ⟨"t", "20240101_x.txt"⟩] ∧
    (worker86 (fun _ => some "20240101") (fun _ => false) false [] "" ""
        [⟨"t", "x.txt"⟩, ⟨"t", "x_001.txt"⟩, ⟨"t", "20240101_x.txt"⟩]
        [⟨"t", "x.txt"⟩, ⟨"t", "x_001.txt"⟩, ⟨"t", "20240101_x.txt"⟩]).2.1.filterMap
      (fun o => if o.old = ⟨"t", "x.txt"⟩ then some o.new.name else none) =
      ["20240101_x_001.txt"] ∧
    (worker86 (fun _ => some "20240101") (fun _ => false) false [] "" ""
        [⟨"t", "x_001.txt"⟩, ⟨"t", "x.txt"⟩, ⟨"t", "20240101_x.txt"⟩]
        [⟨"t", "x.txt"⟩, ⟨"t", "x_001.txt"⟩, ⟨"t", "20240101_x.txt"⟩]).2.1.filterMap
      (fun o => if o.old = ⟨"t", "x.txt"⟩ then some o.new.name else none) =
      ["20240101_x_002.txt"] ∧
    ("20240101_x_001.txt" : String) ≠ "20240101_x_002.txt" :=
  ⟨List.Perm.swap (⟨"t", "x.txt"⟩ : FPath) ⟨"t", "x_001.txt"⟩ [⟨"t", "20240101_x.txt"⟩],
    by decide, by decide, by decide⟩
